import Mathlib

/-!
Shallow embedding of the `cl` single-header command-line parsing library
(`src/include/cl/cl.h`).  The data model (Arg, Opt, Param, One, Cmd), the
registration-time checks (`Options::complete`, `Cmd::operator,` /
`check_required`), the tokenizer and the candidate-matching loop of
`cl::parse` are translated function by function.  `std::unordered_map` is
modelled as an association list with overwrite (`setArg`) and
insert-if-absent (`tryEmplace`) operations; lookups never depend on
iteration order, so this is observationally faithful.  Process termination
(`exit(1)`, `exit(2)`, `exit(3)`) and the one out-of-bounds access
(`arg.front()` on an empty token) are modelled as distinguished `Outcome`
constructors.  Help/usage text rendering is not modelled (it only prints);
the command entry handler is a side-effecting callback and is likewise not
part of the value-level result.
-/

namespace CL

/-! ### Value model: `cl::Arg`, a tagged union null / bool / int / string -/

inductive Arg where
  | null
  | bool (b : Bool)
  | int (n : Int)
  | str (s : String)
deriving DecidableEq

/-- Result mapping (`cl::Args`, an `unordered_map<string_view, Arg>`) modelled
as an association list: first entry with a matching key wins on lookup. -/
abbrev Store := List (String × Arg)

def lookup (k : String) : Store → Option Arg
  | [] => none
  | (k2, a) :: rest => if k2 = k then some a else lookup k rest

/-- Overwriting assignment `v[k] = a` (`unordered_map::operator[]` + assign). -/
def setArg (k : String) (a : Arg) : Store → Store
  | [] => [(k, a)]
  | (k2, b) :: rest => if k2 = k then (k, a) :: rest else (k2, b) :: setArg k a rest

/-- Insert-if-absent, `unordered_map::try_emplace`. -/
def tryEmplace (s : Store) (k : String) (a : Arg) : Store :=
  if (lookup k s).isSome then s else s ++ [(k, a)]

/-- The tokenizer's option map `mopts` (`unordered_map<string_view, string_view>`). -/
abbrev StrMap := List (String × String)

def lookupStr (k : String) : StrMap → Option String
  | [] => none
  | (k2, a) :: rest => if k2 = k then some a else lookupStr k rest

def setStr (k : String) (a : String) : StrMap → StrMap
  | [] => [(k, a)]
  | (k2, b) :: rest => if k2 = k then (k, a) :: rest else (k2, b) :: setStr k a rest

/-- Insert-if-absent on `StrMap`; `mopts[key]` default-inserts an empty value. -/
def tryEmplaceStr (m : StrMap) (k : String) (a : String) : StrMap :=
  if (lookupStr k m).isSome then m else m ++ [(k, a)]

/-! ### Schema model -/

/-- An `impl::Opt`: short name (may be empty), full name, flag/value kind. -/
structure Opt where
  shortname : String
  name : String
  flag : Bool
  description : String
deriving DecidableEq

/-- An `impl::Param`: a positional slot (`option = false`) or a reference to a
registered option (`option = true`); `required` starts `true`, `operator*`
clears it. -/
structure Param where
  val : String
  required : Bool
  option : Bool
deriving DecidableEq

/-- An `impl::One`: a choice group of literal alternatives. -/
structure One where
  items : List String
  required : Bool
deriving DecidableEq

def One.contains (o : One) (arg : String) : Bool :=
  o.items.any (fun x => arg == x)

inductive ParamType where
  | param (p : Param)
  | one (o : One)
deriving DecidableEq

/-- An `impl::Cmd`: name, wildcard flag (`any`), ordered positional slots
(`args`) and referenced options (`options`).  The `entry` callback and the
unused `mincount` counter are not modelled. -/
structure Cmd where
  name : String
  any : Bool
  args : List ParamType
  options : List Param
deriving DecidableEq

/-- The process-wide registry: `Options::items` and `Usage::items`. -/
structure Registry where
  opts : List Opt
  cmds : List Cmd
deriving DecidableEq

/-! ### Exit taxonomy.  Every terminal path of the engine becomes one
`Outcome`: a returned mapping, `help_and_exit` (code 1), `version_and_exit`
(code 1), `error_and_exit` (code 2, `ERROR:` prefix), `print_and_exit`
(code 2), `impl::abort` (code 3), or the out-of-bounds read of
`arg.front()` on an empty token (undefined behavior in the C++). -/

inductive Outcome where
  | ok (v : Store)
  | exitHelp
  | exitVersion
  | exitErr (msg : String)
  | exitPrint (msg : String)
  | exitAbort
  | oob
deriving DecidableEq

def exitCode : Outcome → Option Nat
  | .ok _ => none
  | .exitHelp => some 1
  | .exitVersion => some 1
  | .exitErr _ => some 2
  | .exitPrint _ => some 2
  | .exitAbort => some 3
  | .oob => none

/-! ### String helpers used by the tokenizer -/

/-- First character of a token; `none` models `front()` being out of bounds. -/
def strFront (s : String) : Option Char := s.toList.head?

def strDrop (n : Nat) (s : String) : String := String.mk (s.toList.drop n)

def startsDash (s : String) : Bool := strFront s = some '-'

/-- `impl::strip_dash`: remove up to two leading dashes. -/
def stripDash (s : String) : String :=
  if startsDash s then
    let s1 := strDrop 1 s
    if startsDash s1 then strDrop 1 s1 else s1
  else s

/-- `Options::parse`: split the token at the first `=` into a dash-stripped
candidate name and the inline value (empty when there is no `=`, or when the
`=` is the last character). -/
def optionsParse (arg : String) : String × String :=
  match arg.toList.findIdx? (fun ch => ch = '=') with
  | none => (stripDash arg, "")
  | some i => (stripDash (String.mk (arg.toList.take i)),
               String.mk (arg.toList.drop (i + 1)))

/-- `Options::get_option`: resolve a stripped name against the registered
options by exact short- or full-name match; names shorter than two
characters never resolve. -/
def getOption (opts : List Opt) (arg : String) : Option Opt :=
  if arg.length < 2 then none
  else opts.find? (fun o => arg == o.shortname || arg == o.name)

/-- `Options::is_short`: true when the token has exactly one leading dash. -/
def isShort (n : String) : Bool := startsDash n && !(startsDash (strDrop 1 n))

/-! ### Option registration: `Options::complete` -/

def helpOpt : Opt := ⟨"h", "help", true, "Show this screen"⟩
def versionOpt : Opt := ⟨"v", "version", true, "Show version"⟩

/-- The items list after the two implicit options are injected at the front. -/
def optFullList (user : List Opt) : List Opt := helpOpt :: versionOpt :: user

/-- The duplicate scan of `Options::complete`: `valid` accumulates every full
and short name seen so far; a full-name hit, then a short-name hit, is a
fatal duplicate. -/
def completeCheck : List Opt → List String → Except Outcome Unit
  | [], _ => .ok ()
  | o :: rest, valid =>
    if o.name ∈ valid then .error (.exitPrint ("Duplicate Option '" ++ o.name ++ "'"))
    else if o.shortname ∈ valid then
      .error (.exitPrint ("Duplicate Short Option '" ++ o.shortname ++ "'"))
    else completeCheck rest (valid ++ [o.name, o.shortname])

/-- Registering a batch of user options (`Options` constructor followed by
`Options::complete`). -/
def optionsRegister (user : List Opt) : Except Outcome (List Opt) :=
  match completeCheck (optFullList user) [] with
  | .ok _ => .ok (optFullList user)
  | .error e => .error e

/-- A later option reusing any name of an earlier option (full or short,
either way around). -/
def collide (a b : Opt) : Bool :=
  b.name == a.name || b.name == a.shortname || b.shortname == a.name || b.shortname == a.shortname

def hasCollision : List Opt → Bool
  | [] => false
  | o :: rest => rest.any (collide o) || hasCollision rest

/-- The `Options::valid` set after registration: every full and short name. -/
def validOf (opts : List Opt) : List String :=
  opts.flatMap (fun o => [o.name, o.shortname])

/-! ### Command registration: `impl::Cmd::operator,` with `check_required` -/

/-- One element appended during `cl::cmd(...)` construction: a `Param`
(positional when `option = false`, option reference when `option = true`)
or a `One` choice group. -/
inductive CItem where
  | pos (p : Param)
  | choice (o : One)
deriving DecidableEq

def ptRequired : ParamType → Bool
  | .param p => p.required
  | .one o => o.required

/-- `impl::Opt::to_string`. -/
def optToString (o : Opt) : String :=
  "--" ++ o.name ++ (if o.flag then "" else "=ARG")

/-- `impl::ParamPrinter::dump` on a `Param`; an option reference that does not
resolve hits `impl::abort` (exit code 3). -/
def dumpParam (opts : List Opt) (p : Param) : Except Outcome String :=
  if p.option then
    match getOption opts p.val with
    | some o => .ok (optToString o)
    | none => .error .exitAbort
  else .ok p.val

/-- `impl::ParamPrinter::dump` on a slot. -/
def dumpPT (opts : List Opt) : ParamType → Except Outcome String
  | .param p => dumpParam opts p
  | .one o => .ok ("(" ++ String.intercalate "|" o.items ++ ")")

/-- `args.empty() || args.back().required`. -/
def isPrevRequired (c : Cmd) : Bool :=
  match c.args.getLast? with
  | none => true
  | some pt => ptRequired pt

def reqErrMsg (d1 d2 cname : String) : String :=
  "Positional '" ++ d1 ++ "' cannot be required because '" ++ d2 ++
    "' is optional for command '" ++ cname ++ "'"

/-- The body of `Cmd::check_required` when it fires: dump the new item and
`args.back()` into the fatal message (the `args.back()` access is guarded by
`is_prev_required` being false, which forces `args` nonempty). -/
def reqErr (opts : List Opt) (c : Cmd) (dnew : Except Outcome String) : Except Outcome Cmd :=
  match dnew with
  | .error e => .error e
  | .ok d1 =>
    match (match c.args.getLast? with
           | some lastPt => dumpPT opts lastPt
           | none => .error .exitAbort) with
    | .error e => .error e
    | .ok d2 => .error (.exitErr (reqErrMsg d1 d2 c.name))

/-- `Cmd::operator,`: an option reference is checked against `Options::valid`
and appended to `options`; a positional or choice group goes through
`check_required` and is appended to `args`. -/
def addItem (opts : List Opt) (c : Cmd) : CItem → Except Outcome Cmd
  | .pos p =>
    if p.option then
      if p.val ∈ validOf opts then .ok { c with options := c.options ++ [p] }
      else .error (.exitPrint ("Unknown option '" ++ p.val ++ "'"))
    else
      if p.required ∧ isPrevRequired c = false then reqErr opts c (dumpParam opts p)
      else .ok { c with args := c.args ++ [.param p] }
  | .choice o =>
    if o.required ∧ isPrevRequired c = false then
      reqErr opts c (.ok ("(" ++ String.intercalate "|" o.items ++ ")"))
    else .ok { c with args := c.args ++ [.one o] }

def buildCmdGo (opts : List Opt) : Cmd → List CItem → Except Outcome Cmd
  | c, [] => .ok c
  | c, it :: rest =>
    match addItem opts c it with
    | .error e => .error e
    | .ok c2 => buildCmdGo opts c2 rest

/-- Building a command from its declaration items, `cl::cmd(name, items...)`:
the comma-fold applies `Cmd::operator,` left to right. -/
def buildCmd (opts : List Opt) (name : String) (anyFlag : Bool)
    (items : List CItem) : Except Outcome Cmd :=
  buildCmdGo opts { name := name, any := anyFlag, args := [], options := [] } items

/-! ### Pre-seeding the result: `impl::init_value` -/

def seedSlot (s : Store) : ParamType → Store
  | .param p => if p.option then s else tryEmplace s p.val .null
  | .one o => o.items.foldl (fun acc item => tryEmplace acc item (.bool false)) s

def seedCmd (s : Store) (c : Cmd) : Store :=
  c.args.foldl seedSlot (tryEmplace s c.name (.bool false))

def seedOpt (s : Store) (o : Opt) : Store :=
  tryEmplace s o.name (if o.flag then .bool false else .null)

/-- `impl::init_value`: commands first (name, then each slot), then every
registered option; `try_emplace` keeps the first seed for a repeated name. -/
def initValue (opts : List Opt) (cmds : List Cmd) : Store :=
  opts.foldl seedOpt (cmds.foldl seedCmd [])

/-! ### Tokenizing scan of `cl::parse` (the loop over `argv[2..]`) -/

/-- The scan over the tokens after the command name.  A token is first read
with `arg.front()` — out of bounds on an empty token (`Outcome.oob`).  A
dash token is split by `Options::parse` and resolved by
`Options::get_option`; a value option consumes the next raw token (short
form) or the non-empty inline value (long form); a flag stores its own
token; an unresolvable dash token is fatal.  Everything else is a
positional token. -/
def tokenize (opts : List Opt) : List String → StrMap → List String →
    Except Outcome (StrMap × List String)
  | [], mopts, margs => .ok (mopts, margs)
  | arg :: rest, mopts, margs =>
    match strFront arg with
    | none => .error .oob
    | some ch =>
      if ch = '-' then
        match getOption opts (optionsParse arg).1 with
        | some o =>
          if o.flag = false then
            if isShort arg then
              match rest with
              | [] => .error (.exitErr "Invalid short option format")
              | vtok :: rest2 => tokenize opts rest2 (setStr o.name vtok mopts) margs
            else
              if (optionsParse arg).2 = "" then
                .error (.exitErr ("Invalid option format '" ++ arg ++ "'"))
              else tokenize opts rest (setStr o.name (optionsParse arg).2 mopts) margs
          else tokenize opts rest (setStr o.name arg mopts) margs
        | none => .error (.exitErr ("Invalid option '" ++ arg ++ "'"))
      else tokenize opts rest mopts (margs ++ [arg])

/-! ### Matching and binding loop of `cl::parse` -/

inductive PadRes where
  | ok (margs : List String)
  | skip
  | fatal (out : Outcome)
deriving DecidableEq

/-- The padding loop (`for i = margs.size(); i < cmd.args.size(); ...`): each
missing slot is filled with an empty token; a missing `required` slot makes
a wildcard candidate skip, and is fatal for an exact-name candidate. -/
def padLoop (opts : List Opt) (anyFlag : Bool) : List ParamType → List String → PadRes
  | [], margs => .ok margs
  | slot :: rest, margs =>
    if ptRequired slot then
      if anyFlag then .skip
      else
        match dumpPT opts slot with
        | .ok d => .fatal (.exitErr ("Missing required argument '" ++ d ++ "'"))
        | .error e => .fatal e
    else padLoop opts anyFlag rest (margs ++ [""])

/-- Binding one slot: a choice group rejects a non-empty token outside its
alternatives and then sets one boolean per alternative; a plain positional
binds a non-empty token as a string and leaves an empty one alone. -/
def bindSlot (v : Store) (tok : String) : ParamType → Except Outcome Store
  | .one o =>
    if tok ≠ "" ∧ o.contains tok = false then
      .error (.exitErr ("Invalid argument '" ++ tok ++ "'"))
    else
      .ok (o.items.foldl (fun acc item => setArg item (.bool (tok == item)) acc) v)
  | .param p => .ok (if tok ≠ "" then setArg p.val (.str tok) v else v)

def bindSlots : Store → List (ParamType × String) → Except Outcome Store
  | v, [] => .ok v
  | v, (slot, tok) :: rest =>
    match bindSlot v tok slot with
    | .error e => .error e
    | .ok v2 => bindSlots v2 rest

/-- Binding one referenced option: resolution failure is the unreachable-code
exit; a supplied flag becomes `true`; a supplied value option reads
`mopts[arg.val]` — the reference name, not the resolved full name, with
`operator[]` default-inserting an empty value; a missing required reference
is fatal. -/
def bindOpt (opts : List Opt) (st : Store × StrMap) (ref : Param) :
    Except Outcome (Store × StrMap) :=
  match getOption opts ref.val with
  | none => .error .exitAbort
  | some o =>
    if (lookupStr o.name st.2).isSome then
      if o.flag then .ok (setArg o.name (.bool true) st.1, st.2)
      else
        let m2 := tryEmplaceStr st.2 ref.val ""
        .ok (setArg o.name (.str ((lookupStr ref.val m2).getD "")) st.1, m2)
    else if ref.required then .error (.exitErr ("Missing required option '" ++ o.name ++ "'"))
    else .ok st

def bindOpts (opts : List Opt) : Store × StrMap → List Param → Except Outcome (Store × StrMap)
  | st, [] => .ok st
  | st, ref :: rest =>
    match bindOpt opts st ref with
    | .error e => .error e
    | .ok st2 => bindOpts opts st2 rest

/-- One candidate's processing once it is reached: the too-many-arguments
check, the command-name assignment `v[cmd.name] = Arg{c}`, the padding
loop, then slot and option binding.  `none` means the wildcard skip
(rollback and try the next candidate). -/
def attemptCmd (opts : List Opt) (mopts : StrMap) (c : String) (v0 : Store)
    (margs : List String) (cmd : Cmd) : Option Outcome :=
  if margs.length > cmd.args.length then some .exitHelp
  else
    let v := setArg cmd.name (.str c) v0
    match padLoop opts cmd.any (cmd.args.drop margs.length) margs with
    | .fatal out => some out
    | .skip => none
    | .ok fullArgs =>
      some (match bindSlots v (cmd.args.zip fullArgs) with
        | .error e => e
        | .ok v2 =>
          match bindOpts opts (v2, mopts) cmd.options with
          | .error e => e
          | .ok st => .ok st.1)

/-- The candidate loop of `cl::parse`: try each registered command in order;
non-candidates are passed over with the state untouched; a wildcard skip
restores the pristine mapping (`init_value`) and the original token list
before the next candidate; exhausting the list is the unknown-command
exit. -/
def matchLoop (opts : List Opt) (cmds0 : List Cmd) (mopts : StrMap) (c : String)
    (bm : List String) : List Cmd → Store → List String → Outcome
  | [], _, _ => .exitPrint ("Unknown command '" ++ c ++ "'")
  | cmd :: rest, v, margs =>
    if cmd.any = false ∧ cmd.name ≠ c then matchLoop opts cmds0 mopts c bm rest v margs
    else
      match attemptCmd opts mopts c v margs cmd with
      | some out => out
      | none => matchLoop opts cmds0 mopts c bm rest (initValue opts cmds0) bm

/-- The option list `cl::parse` works with: `Options::complete()` is run
first when nothing was registered, injecting just the implicit help and
version options. -/
def effOpts (reg : Registry) : List Opt :=
  if reg.opts.isEmpty then optFullList [] else reg.opts

/-- `cl::parse`, taking `argv[1:]` (program name already stripped, as the
spec's input contract states).  Returns the outcome together with the
registry as left behind (the only mutation is the lazy
`Options::complete`). -/
def parse (reg : Registry) (argv : List String) : Outcome × Registry :=
  match argv with
  | [] => if reg.cmds.isEmpty then (.ok [], reg) else (.exitHelp, reg)
  | c :: rest =>
    let opts := effOpts reg
    let reg2 : Registry := { reg with opts := opts }
    if rest.isEmpty ∧ (c = "-h" ∨ c = "--help") then (.exitHelp, reg2)
    else if rest.isEmpty ∧ (c = "-v" ∨ c = "--version") then (.exitVersion, reg2)
    else
      match tokenize opts rest [] [] with
      | .error out => (out, reg2)
      | .ok (mopts, margs) =>
        (matchLoop opts reg.cmds mopts c margs reg.cmds (initValue opts reg.cmds) margs, reg2)

/-- Lookup inside a successful outcome (convenience for concrete results). -/
def okLookup (o : Outcome) (k : String) : Option Arg :=
  match o with
  | .ok v => lookup k v
  | _ => none

/-! ### Basic lemmas about the association-list maps -/

theorem lookup_setArg (k k2 : String) (a : Arg) (s : Store) :
    lookup k2 (setArg k a s) = if k = k2 then some a else lookup k2 s := by
  induction s with
  | nil =>
    by_cases h : k = k2 <;> simp [setArg, lookup, h]
  | cons hd tl ih =>
    obtain ⟨k3, b⟩ := hd
    by_cases h3 : k3 = k
    · subst h3
      by_cases h : k3 = k2 <;> simp [setArg, lookup, h]
    · by_cases h2 : k3 = k2
      · subst h2
        have hne : ¬ k = k3 := fun hh => h3 hh.symm
        simp [setArg, h3, lookup, hne]
      · simp [setArg, h3, lookup, h2, ih]

theorem lookup_append (s t : Store) (k : String) :
    lookup k (s ++ t) = ((lookup k s).rec (lookup k t) (fun a => some a) : Option Arg) := by
  induction s with
  | nil => simp [lookup]
  | cons hd tl ih =>
    obtain ⟨k2, b⟩ := hd
    by_cases h : k2 = k <;> simp [lookup, h, ih]

theorem lookup_tryEmplace (s : Store) (k2 : String) (a : Arg) (k : String) :
    lookup k (tryEmplace s k2 a)
      = ((lookup k s).rec (if k2 = k then some a else none) (fun b => some b) : Option Arg) := by
  unfold tryEmplace
  by_cases hs : (lookup k2 s).isSome
  · rw [if_pos hs]
    cases hlk : lookup k s with
    | some b => simp
    | none =>
      simp only []
      by_cases hk : k2 = k
      · subst hk; rw [hlk] at hs; simp at hs
      · simp [hk]
  · rw [if_neg hs]
    rw [lookup_append]
    cases hlk : lookup k s with
    | some b => simp
    | none => simp [lookup]

theorem lookup_isSome_setArg (k k2 : String) (a : Arg) (s : Store)
    (h : (lookup k2 s).isSome = true) : (lookup k2 (setArg k a s)).isSome = true := by
  rw [lookup_setArg]
  by_cases hk : k = k2 <;> simp [hk, h]

/-! ### C9: parse with no arguments beyond the program name -/

/-- C9: when `parse` receives no arguments beyond the program name, it
renders help and exits with code 1 if at least one command is registered,
and otherwise returns an empty mapping containing no keys at all (the one
result not pre-seeded with schema keys). -/
theorem parse_no_args (reg : Registry) :
    (reg.cmds ≠ [] →
      parse reg [] = (.exitHelp, reg) ∧ exitCode (parse reg []).1 = some 1)
    ∧ (reg.cmds = [] →
      parse reg [] = (.ok [], reg) ∧ ∀ k, lookup k ([] : Store) = none) := by
  constructor
  · intro h
    have he : reg.cmds.isEmpty = false := by
      cases hc : reg.cmds with
      | nil => exact absurd hc h
      | cons a l => simp
    constructor
    · simp [parse, he]
    · simp [parse, he, exitCode]
  · intro h
    have he : reg.cmds.isEmpty = true := by simp [h]
    exact ⟨by simp [parse, he], fun k => rfl⟩

/-- Witness for `parse_no_args` at two concrete registries. -/
theorem parse_no_args_witness :
    (parse ⟨[], [⟨"c", false, [], []⟩]⟩ [] = (.exitHelp, ⟨[], [⟨"c", false, [], []⟩]⟩))
    ∧ (parse ⟨[], []⟩ [] = (.ok [], ⟨[], []⟩)) :=
  ⟨((parse_no_args ⟨[], [⟨"c", false, [], []⟩]⟩).1 (by decide)).1,
   ((parse_no_args ⟨[], []⟩).2 rfl).1⟩

/-! ### C2: more positional tokens than the candidate declares slots for -/

/-- Registry with two wildcard commands: the first declares no positional
slot, the second declares one optional slot that would accept the single
supplied positional token. -/
def regTooMany : Registry :=
  ⟨[], [⟨"cmdA", true, [], []⟩, ⟨"cmdB", true, [.param ⟨"x", false, false⟩], []⟩]⟩

/-- C2 is refuted on the code: the claim predicts that the first candidate
(`cmdA`, zero slots, one token supplied) is merely aborted, with matching
continuing to `cmdB` (which binds the token successfully, as the last
conjunct shows on a registry holding `cmdB` alone), and that a decisive
too-many-tokens condition exits with code 2.  The code instead calls
`help_and_exit` immediately at the first reached candidate whose slot count
is exceeded: the outcome is the help exit with code 1, and `cmdB` is never
tried. -/
theorem too_many_args_counterexample :
    (parse regTooMany ["go", "tok"]).1 = .exitHelp
    ∧ exitCode (parse regTooMany ["go", "tok"]).1 = some 1
    ∧ okLookup (parse ⟨[], [⟨"cmdB", true, [.param ⟨"x", false, false⟩], []⟩]⟩
        ["go", "tok"]).1 "x" = some (.str "tok") := by
  refine ⟨by decide, by decide, by decide⟩

/-- C2 amended: when the candidate loop reaches a candidate command (every
earlier command being a non-candidate: not a wildcard and not named like
the supplied command) whose declared positional-slot count is smaller than
the number of supplied positional tokens, the engine immediately renders
help and exits with code 1, regardless of any later candidate. -/
theorem too_many_args_help_exit (opts : List Opt) (cmds0 : List Cmd) (mopts : StrMap)
    (c : String) (bm : List String) (pre : List Cmd) (cmd : Cmd) (rest : List Cmd)
    (v : Store) (margs : List String)
    (hpre : ∀ d ∈ pre, d.any = false ∧ d.name ≠ c)
    (hcand : cmd.any = true ∨ cmd.name = c)
    (hover : margs.length > cmd.args.length) :
    matchLoop opts cmds0 mopts c bm (pre ++ cmd :: rest) v margs = .exitHelp
    ∧ exitCode (matchLoop opts cmds0 mopts c bm (pre ++ cmd :: rest) v margs) = some 1 := by
  have hmain : matchLoop opts cmds0 mopts c bm (pre ++ cmd :: rest) v margs = .exitHelp := by
    induction pre with
    | nil =>
      simp only [List.nil_append, matchLoop]
      have hnc : ¬(cmd.any = false ∧ cmd.name ≠ c) := by
        rcases hcand with h | h
        · simp [h]
        · simp [h]
      rw [if_neg hnc]
      have hat : attemptCmd opts mopts c v margs cmd = some .exitHelp := by
        unfold attemptCmd
        rw [if_pos hover]
      rw [hat]
    | cons d pre2 ih =>
      simp only [List.cons_append, matchLoop]
      have hd := hpre d (by simp)
      rw [if_pos hd]
      exact ih (fun x hx => hpre x (by simp [hx]))
  exact ⟨hmain, by rw [hmain]; rfl⟩

/-- Witness for `too_many_args_help_exit` on a concrete candidate list. -/
theorem too_many_args_help_exit_witness :
    matchLoop [] [] [] "go" ["tok"]
      ([⟨"zzz", false, [], []⟩] ++ ⟨"cmdA", true, [], []⟩ :: [⟨"cmdB", true, [.param ⟨"x", false, false⟩], []⟩])
      [] ["tok"] = .exitHelp :=
  (too_many_args_help_exit [] [] [] "go" ["tok"] [⟨"zzz", false, [], []⟩]
    ⟨"cmdA", true, [], []⟩ [⟨"cmdB", true, [.param ⟨"x", false, false⟩], []⟩] [] ["tok"]
    (by decide) (by decide) (by decide)).1

/-! ### C1: rollback after a rejected wildcard candidate -/

/-- C1: when a wildcard candidate fails the required-slot padding check, the
state passed to the rest of the candidate loop is exactly the pristine
pre-seeded mapping `initValue` together with the original tokenizer output
`bm` — and this holds for an arbitrary incoming mapping `v` and token list
`margs`, so nothing bound during the rejected attempt (the candidate's own
command-name key included, which `attemptCmd` sets before the padding
check) survives into the result of any later candidate. -/
theorem wildcard_rollback (opts : List Opt) (cmds0 : List Cmd) (mopts : StrMap)
    (c : String) (bm : List String) (w : Cmd) (rest : List Cmd) (v : Store)
    (margs : List String)
    (hany : w.any = true)
    (hlen : ¬ margs.length > w.args.length)
    (hskip : padLoop opts true (w.args.drop margs.length) margs = .skip) :
    matchLoop opts cmds0 mopts c bm (w :: rest) v margs
      = matchLoop opts cmds0 mopts c bm rest (initValue opts cmds0) bm := by
  simp only [matchLoop]
  have hnc : ¬(w.any = false ∧ w.name ≠ c) := by simp [hany]
  rw [if_neg hnc]
  have hat : attemptCmd opts mopts c v margs w = none := by
    unfold attemptCmd
    rw [if_neg hlen, hany, hskip]
  rw [hat]

/-- Witness for `wildcard_rollback`: a wildcard with a required slot and no
supplied tokens is rejected, and even starting from a polluted mapping the
next candidate sees the pristine `initValue` state. -/
theorem wildcard_rollback_witness :
    padLoop [] true ([ParamType.param ⟨"arg4_1", true, false⟩].drop ([] : List String).length) [] = .skip
    ∧ matchLoop [] [⟨"command4", true, [.param ⟨"arg4_1", true, false⟩], []⟩, ⟨"command5", true, [], []⟩]
        [] "custom2" []
        (⟨"command4", true, [.param ⟨"arg4_1", true, false⟩], []⟩ :: [⟨"command5", true, [], []⟩])
        [("arg4_1", .str "LEAK"), ("command4", .str "custom2")] []
      = matchLoop [] [⟨"command4", true, [.param ⟨"arg4_1", true, false⟩], []⟩, ⟨"command5", true, [], []⟩]
        [] "custom2" [] [⟨"command5", true, [], []⟩]
        (initValue [] [⟨"command4", true, [.param ⟨"arg4_1", true, false⟩], []⟩, ⟨"command5", true, [], []⟩]) [] :=
  ⟨by decide,
   wildcard_rollback [] [⟨"command4", true, [.param ⟨"arg4_1", true, false⟩], []⟩, ⟨"command5", true, [], []⟩]
     [] "custom2" [] ⟨"command4", true, [.param ⟨"arg4_1", true, false⟩], []⟩
     [⟨"command5", true, [], []⟩] [("arg4_1", .str "LEAK"), ("command4", .str "custom2")] []
     (by decide) (by decide) (by decide)⟩

/-! ### C4: value-bearing options in short and long form, flags -/

/-- C4: for a token that resolves to a registered option: a value option in
short form consumes the next raw token verbatim as the value and is a user
input error when no token remains; a value option in long form requires the
non-empty inline `=value` (an absent or empty inline value is a user input
error); a flag consumes only its own token. -/
theorem option_token_binding (opts : List Opt) (o : Opt) (tok : String)
    (mopts : StrMap) (margs : List String)
    (hres : getOption opts (optionsParse tok).1 = some o)
    (hdash : startsDash tok = true) :
    ((o.flag = false → isShort tok = true →
        (∀ next rest, tokenize opts (tok :: next :: rest) mopts margs
            = tokenize opts rest (setStr o.name next mopts) margs)
        ∧ tokenize opts [tok] mopts margs = .error (.exitErr "Invalid short option format"))
     ∧ (o.flag = false → isShort tok = false →
        ((optionsParse tok).2 ≠ "" →
          ∀ rest, tokenize opts (tok :: rest) mopts margs
            = tokenize opts rest (setStr o.name (optionsParse tok).2 mopts) margs)
        ∧ ((optionsParse tok).2 = "" →
          ∀ rest, tokenize opts (tok :: rest) mopts margs
            = .error (.exitErr ("Invalid option format '" ++ tok ++ "'"))))
     ∧ (o.flag = true → ∀ rest, tokenize opts (tok :: rest) mopts margs
          = tokenize opts rest (setStr o.name tok mopts) margs)) := by
  have hf : strFront tok = some '-' := by simpa [startsDash] using hdash
  refine ⟨fun hflag hshort => ⟨fun next rest => ?_, ?_⟩,
          fun hflag hshort => ⟨fun hval rest => ?_, fun hval rest => ?_⟩,
          fun hflag rest => ?_⟩ <;>
    simp [tokenize, hf, hres, hflag, *]

/-- Witness for `option_token_binding`: `option2` is a registered value
option with short name `o2`, `option1` a registered flag. -/
theorem option_token_binding_witness :
    (getOption (optFullList [⟨"o1", "option1", true, ""⟩, ⟨"o2", "option2", false, ""⟩])
        (optionsParse "-o2").1 = some ⟨"o2", "option2", false, ""⟩)
    ∧ tokenize (optFullList [⟨"o1", "option1", true, ""⟩, ⟨"o2", "option2", false, ""⟩])
        ["-o2", "value"] [] []
      = tokenize (optFullList [⟨"o1", "option1", true, ""⟩, ⟨"o2", "option2", false, ""⟩])
        [] (setStr "option2" "value" []) []
    ∧ tokenize (optFullList [⟨"o1", "option1", true, ""⟩, ⟨"o2", "option2", false, ""⟩])
        ["-o2"] [] [] = .error (.exitErr "Invalid short option format")
    ∧ tokenize (optFullList [⟨"o1", "option1", true, ""⟩, ⟨"o2", "option2", false, ""⟩])
        ["--option2=value"] [] []
      = tokenize (optFullList [⟨"o1", "option1", true, ""⟩, ⟨"o2", "option2", false, ""⟩])
        [] (setStr "option2" "value" []) []
    ∧ tokenize (optFullList [⟨"o1", "option1", true, ""⟩, ⟨"o2", "option2", false, ""⟩])
        ["--option2"] [] [] = .error (.exitErr ("Invalid option format '" ++ "--option2" ++ "'"))
    ∧ tokenize (optFullList [⟨"o1", "option1", true, ""⟩, ⟨"o2", "option2", false, ""⟩])
        ["-o1", "x"] [] []
      = tokenize (optFullList [⟨"o1", "option1", true, ""⟩, ⟨"o2", "option2", false, ""⟩])
        ["x"] (setStr "option1" "-o1" []) [] := by
  refine ⟨by decide, ?_, ?_, ?_, ?_, ?_⟩
  · exact ((option_token_binding _ ⟨"o2", "option2", false, ""⟩ "-o2" [] []
      (by decide) (by decide)).1 rfl (by decide)).1 "value" []
  · exact ((option_token_binding _ ⟨"o2", "option2", false, ""⟩ "-o2" [] []
      (by decide) (by decide)).1 rfl (by decide)).2
  · exact ((option_token_binding _ ⟨"o2", "option2", false, ""⟩ "--option2=value" [] []
      (by decide) (by decide)).2.1 rfl (by decide)).1 (by decide) []
  · exact ((option_token_binding _ ⟨"o2", "option2", false, ""⟩ "--option2" [] []
      (by decide) (by decide)).2.1 rfl (by decide)).2 (by decide) []
  · exact (option_token_binding _ ⟨"o1", "option1", true, ""⟩ "-o1" [] []
      (by decide) (by decide)).2.2 rfl ["x"]

/-! ### C10: the unguarded first-character read in the tokenizing scan -/

/-- C10: the scan reads `arg.front()` on each token it reaches without an
emptiness guard (modelled as the `.oob` outcome); when every element after
the command name is non-empty the access is always in bounds, and the
out-of-bounds access can only arise from an empty-string token in the
argument vector. -/
theorem tokenize_oob (opts : List Opt) (args : List String) (mopts : StrMap)
    (margs : List String) :
    ((∀ t ∈ args, t ≠ "") → tokenize opts args mopts margs ≠ .error .oob)
    ∧ (tokenize opts args mopts margs = .error .oob → ∃ t ∈ args, t = "") := by
  induction args, mopts, margs using tokenize.induct opts with
  | case1 mopts margs => simp [tokenize]
  | case2 arg rest mopts margs hfront =>
    have harg : arg = "" := by
      obtain ⟨data⟩ := arg
      have hd : data = [] := by
        simpa [strFront, String.toList, List.head?_eq_none_iff] using hfront
      subst hd
      rfl
    subst harg
    constructor
    · intro hne
      exact absurd rfl (hne "" (by simp))
    · intro _
      exact ⟨"", by simp, rfl⟩
  | case3 arg mopts margs o hget hflag hshort hfront =>
    constructor
    · intro _
      simp [tokenize, hfront, hget, hflag, hshort]
    · intro h
      simp [tokenize, hfront, hget, hflag, hshort] at h
  | case4 arg mopts margs o hget hflag hshort vtok rest2 hfront ih =>
    have hstep : tokenize opts (arg :: vtok :: rest2) mopts margs
        = tokenize opts rest2 (setStr o.name vtok mopts) margs := by
      simp [tokenize, hfront, hget, hflag, hshort]
    constructor
    · intro hne
      rw [hstep]
      exact ih.1 (fun t ht => hne t (by simp [ht]))
    · intro h
      rw [hstep] at h
      obtain ⟨t, ht, he⟩ := ih.2 h
      exact ⟨t, by simp [ht], he⟩
  | case5 arg rest mopts margs o hget hflag hshort hval hfront =>
    constructor
    · intro _
      simp [tokenize, hfront, hget, hflag, hshort, hval]
    · intro h
      simp [tokenize, hfront, hget, hflag, hshort, hval] at h
  | case6 arg rest mopts margs o hget hflag hshort hval hfront ih =>
    have hstep : tokenize opts (arg :: rest) mopts margs
        = tokenize opts rest (setStr o.name (optionsParse arg).2 mopts) margs := by
      simp [tokenize, hfront, hget, hflag, hshort, hval]
    constructor
    · intro hne
      rw [hstep]
      exact ih.1 (fun t ht => hne t (by simp [ht]))
    · intro h
      rw [hstep] at h
      obtain ⟨t, ht, he⟩ := ih.2 h
      exact ⟨t, by simp [ht], he⟩
  | case7 arg rest mopts margs o hget hflag hfront ih =>
    have hstep : tokenize opts (arg :: rest) mopts margs
        = tokenize opts rest (setStr o.name arg mopts) margs := by
      simp [tokenize, hfront, hget, hflag]
    constructor
    · intro hne
      rw [hstep]
      exact ih.1 (fun t ht => hne t (by simp [ht]))
    · intro h
      rw [hstep] at h
      obtain ⟨t, ht, he⟩ := ih.2 h
      exact ⟨t, by simp [ht], he⟩
  | case8 arg rest mopts margs hget hfront =>
    constructor
    · intro _
      simp [tokenize, hfront, hget]
    · intro h
      simp [tokenize, hfront, hget] at h
  | case9 arg rest mopts margs ch hfront hch ih =>
    have hstep : tokenize opts (arg :: rest) mopts margs
        = tokenize opts rest mopts (margs ++ [arg]) := by
      simp [tokenize, hfront, hch]
    constructor
    · intro hne
      rw [hstep]
      exact ih.1 (fun t ht => hne t (by simp [ht]))
    · intro h
      rw [hstep] at h
      obtain ⟨t, ht, he⟩ := ih.2 h
      exact ⟨t, by simp [ht], he⟩

/-- Witness for `tokenize_oob`: an all-non-empty vector scans without the
out-of-bounds access, and the access on an empty token is the `.oob`
outcome. -/
theorem tokenize_oob_witness :
    tokenize [] ["a", "b"] [] [] ≠ .error .oob
    ∧ (tokenize [] ["a", ""] [] [] = .error .oob → ∃ t ∈ ["a", ""], t = "") :=
  ⟨(tokenize_oob [] ["a", "b"] [] []).1 (by decide),
   (tokenize_oob [] ["a", ""] [] []).2⟩

/-! ### C3: duplicate detection in option registration -/

/-- All declared names of a batch of options, full and short, in order. -/
def optNames (l : List Opt) : List String := l.flatMap (fun o => [o.name, o.shortname])

theorem completeCheck_ok_iff (items : List Opt) (valid : List String) :
    completeCheck items valid = .ok () ↔
      (hasCollision items = false ∧ ∀ o ∈ items, o.name ∉ valid ∧ o.shortname ∉ valid) := by
  induction items generalizing valid with
  | nil => simp [completeCheck, hasCollision]
  | cons o rest ih =>
    simp only [completeCheck]
    by_cases h1 : o.name ∈ valid
    · rw [if_pos h1]
      constructor
      · intro h
        exact absurd h (by simp)
      · rintro ⟨-, hv⟩
        exact absurd h1 (hv o (by simp)).1
    · by_cases h2 : o.shortname ∈ valid
      · rw [if_neg h1, if_pos h2]
        constructor
        · intro h
          exact absurd h (by simp)
        · rintro ⟨-, hv⟩
          exact absurd h2 (hv o (by simp)).2
      · rw [if_neg h1, if_neg h2, ih]
        constructor
        · rintro ⟨hc, hv⟩
          constructor
          · have hany : rest.any (collide o) = false := by
              rw [List.any_eq_false]
              intro b hb
              have hbn := (hv b hb).1
              have hbs := (hv b hb).2
              simp only [List.mem_append, List.mem_cons, List.mem_singleton,
                List.not_mem_nil, not_or] at hbn hbs
              simp [collide, hbn.2.1, hbn.2.2.1, hbs.2.1, hbs.2.2.1]
            simp [hasCollision, hany, hc]
          · intro x hx
            rcases List.mem_cons.mp hx with rfl | hx2
            · exact ⟨h1, h2⟩
            · have hxv := hv x hx2
              simp only [List.mem_append, List.mem_cons, List.mem_singleton,
                List.not_mem_nil, not_or] at hxv
              exact ⟨hxv.1.1, hxv.2.1⟩
        · rintro ⟨hc, hv⟩
          have hcc : rest.any (collide o) = false ∧ hasCollision rest = false := by
            simpa [hasCollision, Bool.or_eq_false_iff] using hc
          refine ⟨hcc.2, ?_⟩
          intro b hb
          have hb1 := hv b (List.mem_cons_of_mem _ hb)
          have hnc := List.any_eq_false.mp hcc.1 b hb
          simp only [collide, Bool.or_eq_true, beq_iff_eq, not_or] at hnc
          obtain ⟨⟨⟨ha, hb2⟩, hc2⟩, hd⟩ := hnc
          simp only [List.mem_append, List.mem_cons, List.not_mem_nil, not_or,
            or_false]
          exact ⟨⟨hb1.1, ha, hb2⟩, hb1.2, hc2, hd⟩

theorem completeCheck_error_shape (items : List Opt) (valid : List String) (e : Outcome)
    (h : completeCheck items valid = .error e) :
    ∃ n, e = .exitPrint ("Duplicate Option '" ++ n ++ "'")
       ∨ e = .exitPrint ("Duplicate Short Option '" ++ n ++ "'") := by
  induction items generalizing valid with
  | nil => simp [completeCheck] at h
  | cons o rest ih =>
    simp only [completeCheck] at h
    by_cases h1 : o.name ∈ valid
    · rw [if_pos h1] at h
      refine ⟨o.name, Or.inl ?_⟩
      injection h with h2
      exact h2.symm
    · by_cases h2 : o.shortname ∈ valid
      · rw [if_neg h1, if_pos h2] at h
        refine ⟨o.shortname, Or.inr ?_⟩
        injection h with h3
        exact h3.symm
      · rw [if_neg h1, if_neg h2] at h
        exact ih _ h

theorem nodup_no_collision (l : List Opt) (h : (optNames l).Nodup) : hasCollision l = false := by
  induction l with
  | nil => rfl
  | cons o rest ih =>
    have hl : optNames (o :: rest) = o.name :: o.shortname :: optNames rest := by
      simp [optNames]
    rw [hl] at h
    have h1 : o.name ∉ o.shortname :: optNames rest ∧ (o.shortname :: optNames rest).Nodup :=
      List.nodup_cons.mp h
    have h2 : o.shortname ∉ optNames rest ∧ (optNames rest).Nodup :=
      List.nodup_cons.mp h1.2
    have hany : rest.any (collide o) = false := by
      rw [List.any_eq_false]
      intro b hb
      have hbn : b.name ∈ optNames rest := by
        simp only [optNames, List.mem_flatMap]
        exact ⟨b, hb, by simp⟩
      have hbs : b.shortname ∈ optNames rest := by
        simp only [optNames, List.mem_flatMap]
        exact ⟨b, hb, by simp⟩
      have hn1 : o.name ∉ optNames rest := fun hx => h1.1 (List.mem_cons_of_mem _ hx)
      simp only [collide, Bool.or_eq_true, beq_iff_eq, not_or]
      exact ⟨⟨⟨fun he => hn1 (he ▸ hbn), fun he => h2.1 (he ▸ hbn)⟩,
             fun he => hn1 (he ▸ hbs)⟩, fun he => h2.1 (he ▸ hbs)⟩
    simp [hasCollision, hany, ih h2.2]

/-- C3: registering a batch of user options terminates with a duplicate-name
schema error exactly when some option reuses a full or short name of an
earlier one in the completed list (the implicit `help`/`h` and `version`/`v`
options injected first included); in particular, when every declared full and
short name is pairwise distinct and distinct from the implicit four,
registration succeeds and the registry becomes the completed list.
Registration is a phase of its own (`Options::complete`), run before any
parsing. -/
theorem option_registration (user : List Opt) :
    ((∃ l, optionsRegister user = .ok l) ↔ hasCollision (optFullList user) = false)
    ∧ (∀ l, optionsRegister user = .ok l → l = optFullList user)
    ∧ (∀ e, optionsRegister user = .error e →
        ∃ n, e = .exitPrint ("Duplicate Option '" ++ n ++ "'")
           ∨ e = .exitPrint ("Duplicate Short Option '" ++ n ++ "'"))
    ∧ ((optNames user).Nodup ∧ (∀ n ∈ optNames user, n ∉ ["help", "h", "version", "v"]) →
        optionsRegister user = .ok (optFullList user)) := by
  have hiff : completeCheck (optFullList user) [] = .ok () ↔
      hasCollision (optFullList user) = false := by
    rw [completeCheck_ok_iff]
    simp
  refine ⟨?_, ?_, ?_, ?_⟩
  · constructor
    · rintro ⟨l, hl⟩
      unfold optionsRegister at hl
      cases hcc : completeCheck (optFullList user) [] with
      | ok u => exact hiff.mp (by cases u; exact hcc)
      | error e => rw [hcc] at hl; exact absurd hl (by simp)
    · intro hc
      exact ⟨optFullList user, by unfold optionsRegister; rw [hiff.mpr hc]⟩
  · intro l hl
    unfold optionsRegister at hl
    cases hcc : completeCheck (optFullList user) [] with
    | ok u => rw [hcc] at hl; injection hl with h2; exact h2.symm
    | error e => rw [hcc] at hl; exact absurd hl (by simp)
  · intro e he
    unfold optionsRegister at he
    cases hcc : completeCheck (optFullList user) [] with
    | ok u => rw [hcc] at he; exact absurd he (by simp)
    | error e2 =>
      rw [hcc] at he
      injection he with h2
      exact h2 ▸ completeCheck_error_shape _ _ _ hcc
  · rintro ⟨hnd, himp⟩
    have hcol : hasCollision (optFullList user) = false := by
      have huser : hasCollision user = false := nodup_no_collision user hnd
      have hv : user.any (collide versionOpt) = false := by
        rw [List.any_eq_false]
        intro b hb
        have hbn : b.name ∈ optNames user := by
          simp only [optNames, List.mem_flatMap]
          exact ⟨b, hb, by simp⟩
        have hbs : b.shortname ∈ optNames user := by
          simp only [optNames, List.mem_flatMap]
          exact ⟨b, hb, by simp⟩
        have hn := himp b.name hbn
        have hs := himp b.shortname hbs
        simp only [List.mem_cons, List.mem_singleton, List.not_mem_nil, not_or] at hn hs
        simp [collide, versionOpt, hn.2.2.1, hn.2.2.2.1, hs.2.2.1, hs.2.2.2.1]
      have hh : (versionOpt :: user).any (collide helpOpt) = false := by
        rw [List.any_eq_false]
        intro b hb
        rcases List.mem_cons.mp hb with rfl | hb2
        · decide
        · have hbn : b.name ∈ optNames user := by
            simp only [optNames, List.mem_flatMap]
            exact ⟨b, hb2, by simp⟩
          have hbs : b.shortname ∈ optNames user := by
            simp only [optNames, List.mem_flatMap]
            exact ⟨b, hb2, by simp⟩
          have hn := himp b.name hbn
          have hs := himp b.shortname hbs
          simp only [List.mem_cons, List.mem_singleton, List.not_mem_nil, not_or] at hn hs
          simp [collide, helpOpt, hn.1, hn.2.1, hs.1, hs.2.1]
      simp [optFullList, hasCollision, hh, hv, huser]
    unfold optionsRegister
    rw [hiff.mpr hcol]

/-- Witness for `option_registration`: a clean batch registers successfully;
a short-name reuse is a duplicate schema error. -/
theorem option_registration_witness :
    optionsRegister [⟨"o1", "option1", true, ""⟩, ⟨"o2", "option2", false, ""⟩]
      = .ok (optFullList [⟨"o1", "option1", true, ""⟩, ⟨"o2", "option2", false, ""⟩])
    ∧ ∃ n, Outcome.exitPrint "Duplicate Short Option 'o1'"
            = .exitPrint ("Duplicate Option '" ++ n ++ "'")
         ∨ Outcome.exitPrint "Duplicate Short Option 'o1'"
            = .exitPrint ("Duplicate Short Option '" ++ n ++ "'") :=
  ⟨(option_registration [⟨"o1", "option1", true, ""⟩, ⟨"o2", "option2", false, ""⟩]).2.2.2
     ⟨by decide, by decide⟩,
   (option_registration [⟨"o1", "option1", true, ""⟩, ⟨"o1", "option2", true, ""⟩]).2.2.1
     (Outcome.exitPrint "Duplicate Short Option 'o1'") (by rfl)⟩

/-! ### C6: the required-after-optional ordering invariant -/

def citemPositional : CItem → Bool
  | .pos p => !p.option
  | .choice _ => true

def citemRequired : CItem → Bool
  | .pos p => p.required
  | .choice o => o.required

/-- Invariant maintained by `Cmd::operator,` on successfully built commands:
the positional list never places a required slot after an optional one, a
required last slot means every slot is required, and every `Param` in the
positional list is a true positional (`option = false`). -/
def CmdInv (c : Cmd) : Prop :=
  List.Pairwise (fun a b => ptRequired b = true → ptRequired a = true) c.args
  ∧ (isPrevRequired c = true → ∀ pt ∈ c.args, ptRequired pt = true)
  ∧ (∀ p : Param, ParamType.param p ∈ c.args → p.option = false)

theorem reqErr_not_ok (opts : List Opt) (c : Cmd) (dnew : Except Outcome String)
    (c2 : Cmd) : reqErr opts c dnew ≠ .ok c2 := by
  unfold reqErr
  cases dnew with
  | error e => simp
  | ok d1 =>
    rcases hl : c.args.getLast? with _ | lastPt
    · simp [hl]
    · rcases hd : dumpPT opts lastPt with e | d2 <;> simp [hl, hd]

theorem isPrevRequired_append (c : Cmd) (pt : ParamType) :
    isPrevRequired { c with args := c.args ++ [pt] } = ptRequired pt := by
  simp [isPrevRequired, List.getLast?_concat]

theorem cmdInv_append (c : Cmd) (pt : ParamType) (hinv : CmdInv c)
    (hok : ptRequired pt = true → isPrevRequired c = true)
    (hopt : ∀ p, pt = ParamType.param p → p.option = false) :
    CmdInv { c with args := c.args ++ [pt] } := by
  obtain ⟨hpw, hall, hpo⟩ := hinv
  refine ⟨?_, ?_, ?_⟩
  · rw [List.pairwise_append]
    refine ⟨hpw, by simp, ?_⟩
    intro a ha b hb hbr
    rw [List.mem_singleton] at hb
    subst hb
    exact hall (hok hbr) a ha
  · rw [isPrevRequired_append]
    intro hr pt2 hm
    rcases List.mem_append.mp hm with hm2 | hm2
    · exact hall (hok hr) pt2 hm2
    · rw [List.mem_singleton] at hm2
      subst hm2
      exact hr
  · intro p hm
    rcases List.mem_append.mp hm with hm2 | hm2
    · exact hpo p hm2
    · rw [List.mem_singleton] at hm2
      exact hopt p hm2.symm

theorem addItem_inv (opts : List Opt) (c c2 : Cmd) (it : CItem)
    (hinv : CmdInv c) (h : addItem opts c it = .ok c2) :
    CmdInv c2 ∧ c2.name = c.name := by
  cases it with
  | pos p =>
    simp only [addItem] at h
    by_cases hopt : p.option
    · rw [if_pos hopt] at h
      by_cases hv : p.val ∈ validOf opts
      · rw [if_pos hv] at h
        injection h with h2
        subst h2
        exact ⟨⟨hinv.1, hinv.2.1, hinv.2.2⟩, rfl⟩
      · rw [if_neg hv] at h
        exact absurd h (by simp)
    · rw [if_neg hopt] at h
      by_cases hreq : p.required ∧ isPrevRequired c = false
      · rw [if_pos hreq] at h
        exact absurd h (reqErr_not_ok opts c _ c2)
      · rw [if_neg hreq] at h
        injection h with h2
        subst h2
        refine ⟨cmdInv_append c _ hinv ?_ ?_, rfl⟩
        · intro hr
          have hpr : p.required = true := by simpa [ptRequired] using hr
          cases hb : isPrevRequired c with
          | false => exact absurd ⟨hpr, hb⟩ hreq
          | true => rfl
        · intro p2 hp2
          injection hp2 with h3
          subst h3
          cases hb : p.option with
          | false => rfl
          | true => exact absurd hb hopt
  | choice o =>
    simp only [addItem] at h
    by_cases hreq : o.required ∧ isPrevRequired c = false
    · rw [if_pos hreq] at h
      exact absurd h (reqErr_not_ok opts c _ c2)
    · rw [if_neg hreq] at h
      injection h with h2
      subst h2
      refine ⟨cmdInv_append c _ hinv ?_ ?_, rfl⟩
      · intro hr
        have hor : o.required = true := by simpa [ptRequired] using hr
        cases hb : isPrevRequired c with
        | false => exact absurd ⟨hor, hb⟩ hreq
        | true => rfl
      · intro p2 hp2
        exact absurd hp2 (by simp)

theorem buildCmdGo_inv (opts : List Opt) (items : List CItem) :
    ∀ (c0 c : Cmd), CmdInv c0 → buildCmdGo opts c0 items = .ok c →
      CmdInv c ∧ c.name = c0.name := by
  induction items with
  | nil =>
    intro c0 c h0 hf
    simp only [buildCmdGo] at hf
    injection hf with h2
    subst h2
    exact ⟨h0, rfl⟩
  | cons it rest ih =>
    intro c0 c h0 hf
    simp only [buildCmdGo] at hf
    cases ha : addItem opts c0 it with
    | error e =>
      rw [ha] at hf
      exact absurd hf (by simp)
    | ok c1 =>
      rw [ha] at hf
      obtain ⟨h1, hn⟩ := addItem_inv opts c0 c1 it h0 ha
      obtain ⟨h2, hn2⟩ := ih c1 c h1 hf
      exact ⟨h2, hn2.trans hn⟩

theorem addItem_required_error (opts : List Opt) (c : Cmd) (it : CItem)
    (hinv : CmdInv c) (hpos : citemPositional it = true) (hreq : citemRequired it = true)
    (hprev : isPrevRequired c = false) :
    ∃ d1 d2, addItem opts c it = .error (.exitErr (reqErrMsg d1 d2 c.name)) := by
  cases hl : c.args.getLast? with
  | none =>
    rw [isPrevRequired, hl] at hprev
    exact absurd hprev (by simp)
  | some lastPt =>
    have hmem : lastPt ∈ c.args := List.mem_of_getLast?_eq_some hl
    have hd2 : ∃ d2, dumpPT opts lastPt = .ok d2 := by
      cases lastPt with
      | one o => exact ⟨_, rfl⟩
      | param p =>
        have hpo : p.option = false := hinv.2.2 p hmem
        exact ⟨p.val, by simp [dumpPT, dumpParam, hpo]⟩
    obtain ⟨d2, hd2e⟩ := hd2
    cases it with
    | pos p =>
      have hpo : p.option = false := by simpa [citemPositional] using hpos
      have hpr : p.required = true := by simpa [citemRequired] using hreq
      refine ⟨p.val, d2, ?_⟩
      have hdp : dumpParam opts p = .ok p.val := by simp [dumpParam, hpo]
      simp only [addItem]
      rw [if_neg (by simp [hpo]), if_pos ⟨hpr, hprev⟩]
      simp [reqErr, hdp, hl, hd2e]
    | choice o =>
      have hor : o.required = true := by simpa [citemRequired] using hreq
      refine ⟨"(" ++ String.intercalate "|" o.items ++ ")", d2, ?_⟩
      simp only [addItem]
      rw [if_pos ⟨hor, hprev⟩]
      simp [reqErr, hl, hd2e]

/-- C6: a successfully registered command satisfies the ordering invariant
(no required positional or choice group anywhere after an optional one,
stated as: every slot preceding a required slot is required), and appending
a required positional or required choice group when the previous slot is
optional terminates registration with the schema error naming the offending
command.  The check lives in construction (`check_required`), never at
parse time. -/
theorem required_after_optional (opts : List Opt) (name : String) (anyFlag : Bool)
    (items : List CItem) (c : Cmd)
    (hok : buildCmd opts name anyFlag items = .ok c) :
    List.Pairwise (fun a b => ptRequired b = true → ptRequired a = true) c.args
    ∧ c.name = name
    ∧ (∀ it, citemPositional it = true → citemRequired it = true →
        isPrevRequired c = false →
        ∃ d1 d2, addItem opts c it = .error (.exitErr (reqErrMsg d1 d2 c.name))) := by
  have h0 : CmdInv { name := name, any := anyFlag, args := [], options := [] } := by
    refine ⟨by simp, ?_, by simp⟩
    intro _ pt hm
    exact absurd hm (by simp)
  obtain ⟨hinv, hn⟩ := buildCmdGo_inv opts items _ c h0 hok
  exact ⟨hinv.1, hn, fun it hpos hreq hprev =>
    addItem_required_error opts c it hinv hpos hreq hprev⟩

/-- Witness for `required_after_optional`: a command built with a required
positional followed by an optional one; appending a further required
positional then fails with the message naming the command. -/
theorem required_after_optional_witness :
    List.Pairwise (fun a b => ptRequired b = true → ptRequired a = true)
      (Cmd.args ⟨"mycmd", false, [.param ⟨"a", true, false⟩, .param ⟨"b", false, false⟩], []⟩)
    ∧ Cmd.name ⟨"mycmd", false, [.param ⟨"a", true, false⟩, .param ⟨"b", false, false⟩], []⟩
        = "mycmd"
    ∧ (∀ it, citemPositional it = true → citemRequired it = true →
        isPrevRequired ⟨"mycmd", false, [.param ⟨"a", true, false⟩, .param ⟨"b", false, false⟩], []⟩ = false →
        ∃ d1 d2, addItem []
            ⟨"mycmd", false, [.param ⟨"a", true, false⟩, .param ⟨"b", false, false⟩], []⟩ it
          = .error (.exitErr (reqErrMsg d1 d2
              (Cmd.name ⟨"mycmd", false, [.param ⟨"a", true, false⟩, .param ⟨"b", false, false⟩], []⟩)))) :=
  required_after_optional [] "mycmd" false
    [.pos ⟨"a", true, false⟩, .pos ⟨"b", false, false⟩]
    ⟨"mycmd", false, [.param ⟨"a", true, false⟩, .param ⟨"b", false, false⟩], []⟩ (by rfl)

/-! ### C5: choice-group binding -/

theorem lookup_foldl_setArg (tok : String) (items : List String) (v : Store) (k : String) :
    lookup k (items.foldl (fun acc item => setArg item (.bool (tok == item)) acc) v)
      = if k ∈ items then some (.bool (tok == k)) else lookup k v := by
  induction items generalizing v with
  | nil => simp
  | cons i rest ih =>
    simp only [List.foldl_cons]
    rw [ih]
    by_cases hk : k ∈ rest
    · simp [hk]
    · by_cases hik : i = k
      · subst hik
        simp [hk, lookup_setArg]
      · have hki : ¬ k = i := fun hh => hik hh.symm
        simp [hk, hik, hki, lookup_setArg, List.mem_cons]

/-- Registry with an optional choice group whose first alternative is the
empty string (nothing in registration rejects an empty alternative). -/
def regEmptyAlt : Registry :=
  ⟨[], [⟨"command", false, [.one (One.mk ["", "x"] false)], []⟩]⟩

/-- C5 as stated is refuted on the code at one point: it asserts that all
alternatives are bound to false when the slot's token is empty, but the
binding rule is `margs[i] == one` for each alternative, so an empty padded
token sets an empty-string alternative to true: parsing `["command"]`
against a command whose optional choice group is `{"", "x"}` succeeds and
binds the key `""` to true. -/
theorem choice_empty_counterexample :
    exitCode (parse regEmptyAlt ["command"]).1 = none
    ∧ okLookup (parse regEmptyAlt ["command"]).1 "" = some (.bool true) :=
  ⟨by decide, by decide⟩

/-- Registry for the claim's concrete example: a command with positionals
`a`, `b` and one choice group `{foo, bar}`. -/
def regChoiceEx : Registry :=
  ⟨[], [⟨"command", false,
        [.param ⟨"a", true, false⟩, .param ⟨"b", true, false⟩,
         .one (One.mk ["foo", "bar"] true)], []⟩]⟩

/-- C5 amended: for every choice-group slot bound by a matched command, a
non-empty token matching no alternative is the invalid-argument user error;
otherwise every alternative is bound to the Bool `tok == alternative` — all
false for an empty token except an alternative that is itself the empty
string.  The claim's concrete example holds: parsing
`["command", "x", "y", "foo"]` yields `a = "x"`, `b = "y"`, `foo = true`,
`bar = false`. -/
theorem choice_binding (v : Store) (tok : String) (o : One) :
    (tok ≠ "" → o.contains tok = false →
      bindSlot v tok (.one o) = .error (.exitErr ("Invalid argument '" ++ tok ++ "'")))
    ∧ ((tok = "" ∨ o.contains tok = true) →
      ∃ v2, bindSlot v tok (.one o) = .ok v2
        ∧ ∀ k, lookup k v2 = if k ∈ o.items then some (.bool (tok == k)) else lookup k v)
    ∧ (okLookup (parse regChoiceEx ["command", "x", "y", "foo"]).1 "a" = some (.str "x")
       ∧ okLookup (parse regChoiceEx ["command", "x", "y", "foo"]).1 "b" = some (.str "y")
       ∧ okLookup (parse regChoiceEx ["command", "x", "y", "foo"]).1 "foo" = some (.bool true)
       ∧ okLookup (parse regChoiceEx ["command", "x", "y", "foo"]).1 "bar" = some (.bool false)) := by
  refine ⟨?_, ?_, by decide, by decide, by decide, by decide⟩
  · intro ht hc
    simp [bindSlot, ht, hc]
  · intro h
    have hno : ¬(tok ≠ "" ∧ o.contains tok = false) := by
      rcases h with h | h
      · exact fun hh => hh.1 h
      · exact fun hh => by rw [hh.2] at h; exact absurd h (by simp)
    refine ⟨_, ?_, fun k => lookup_foldl_setArg tok o.items v k⟩
    simp only [bindSlot]
    rw [if_neg hno]

/-- Witness for `choice_binding`: a rejected token errors; a matching token
binds one boolean per alternative. -/
theorem choice_binding_witness :
    (bindSlot [] "zzz" (.one (One.mk ["foo", "bar"] true))
      = .error (.exitErr ("Invalid argument '" ++ "zzz" ++ "'")))
    ∧ ∃ v2, bindSlot [] "foo" (.one (One.mk ["foo", "bar"] true)) = .ok v2
        ∧ ∀ k, lookup k v2
            = if k ∈ (One.mk ["foo", "bar"] true).items
              then some (.bool ("foo" == k)) else lookup k [] :=
  ⟨(choice_binding [] "zzz" (One.mk ["foo", "bar"] true)).1 (by decide) (by decide),
   (choice_binding [] "foo" (One.mk ["foo", "bar"] true)).2.1 (Or.inr (by decide))⟩

/-! ### C8: parsing the same argument vector twice -/

theorem effOpts_ne_nil (reg : Registry) : effOpts reg ≠ [] := by
  unfold effOpts
  by_cases h : reg.opts.isEmpty = true
  · simp [h, optFullList]
  · rw [if_neg h]
    intro hc
    rw [hc] at h
    exact h rfl

theorem isEmpty_eq_false_of_ne_nil {α : Type} {l : List α} (h : l ≠ []) :
    l.isEmpty = false := by
  cases l with
  | nil => exact absurd rfl h
  | cons a t => rfl

theorem effOpts_post (reg : Registry) :
    effOpts { reg with opts := effOpts reg } = effOpts reg := by
  show (if (effOpts reg).isEmpty = true then optFullList [] else effOpts reg) = effOpts reg
  rw [isEmpty_eq_false_of_ne_nil (effOpts_ne_nil reg)]
  simp

theorem parse_snd (reg : Registry) (c : String) (rest : List String) :
    (parse reg (c :: rest)).2 = { reg with opts := effOpts reg } := by
  simp only [parse]
  split_ifs <;> try rfl
  split <;> rfl

theorem parse_stable (reg : Registry) (c : String) (rest : List String) :
    parse { reg with opts := effOpts reg } (c :: rest)
      = ((parse reg (c :: rest)).1, { reg with opts := effOpts reg }) := by
  have he : effOpts { reg with opts := effOpts reg } = effOpts reg := effOpts_post reg
  simp only [parse, he]
  split_ifs <;> try rfl
  split <;> rfl

/-- C8: when `parse` returns successfully, invoking it again with the same
literal argument vector against the registry state it left behind (the only
registry mutation `parse` performs is the lazy `Options::complete`) returns
the identical result mapping.  Entry handlers are outside the model; the
claim's no-modification-in-between premise is the registry being reused
as returned. -/
theorem parse_idempotent (reg : Registry) (argv : List String) (m : Store)
    (hok : (parse reg argv).1 = .ok m) :
    parse ((parse reg argv).2) argv = (.ok m, (parse reg argv).2) := by
  cases argv with
  | nil =>
    by_cases h : reg.cmds.isEmpty = true
    · have h1 : parse reg [] = (.ok [], reg) := by simp [parse, h]
      have hm : Outcome.ok [] = .ok m := by rw [h1] at hok; exact hok
      injection hm with hm2
      rw [h1]
      simp [parse, h, hm2]
    · have h1 : parse reg [] = (.exitHelp, reg) := by simp [parse, h]
      rw [h1] at hok
      exact absurd hok (by simp)
  | cons c rest =>
    rw [parse_snd reg c rest, parse_stable reg c rest, hok]

/-- Witness for `parse_idempotent` at a one-command registry. -/
theorem parse_idempotent_witness :
    parse ((parse ⟨[], [⟨"c", false, [], []⟩]⟩ ["c"]).2) ["c"]
      = (.ok [("c", .str "c"), ("help", .bool false), ("version", .bool false)],
         (parse ⟨[], [⟨"c", false, [], []⟩]⟩ ["c"]).2) :=
  parse_idempotent ⟨[], [⟨"c", false, [], []⟩]⟩ ["c"]
    [("c", .str "c"), ("help", .bool false), ("version", .bool false)] (by decide)

/-! ### C7: schema keys and the seeding order of `init_value` -/

/-- Keys a slot contributes to the pre-seeded mapping. -/
def slotKeys : ParamType → List String
  | .param p => if p.option then [] else [p.val]
  | .one o => o.items

def cmdSlotKeys (c : Cmd) : List String := c.args.flatMap slotKeys

/-- Keys slot binding may write (an option-marked `Param` in the positional
list would also be written; successfully registered commands never contain
one). -/
def slotWrites : ParamType → List String
  | .param p => [p.val]
  | .one o => o.items

/-- Resolved full names of a command's option references. -/
def refNamesL (opts : List Opt) (refs : List Param) : List String :=
  refs.filterMap (fun ref => (getOption opts ref.val).map Opt.name)

/-- Every key of the schema, in the order `init_value` seeds them. -/
def allKeys (opts : List Opt) (cmds : List Cmd) : List String :=
  cmds.flatMap (fun c => c.name :: cmdSlotKeys c) ++ opts.map Opt.name

/-- One step of seeding: `try_emplace`. -/
def seedStep (acc : Store) (kv : String × Arg) : Store := tryEmplace acc kv.1 kv.2

def slotEvents : ParamType → Store
  | .param p => if p.option then [] else [(p.val, Arg.null)]
  | .one o => o.items.map (fun it => (it, Arg.bool false))

/-- The `try_emplace` events of `init_value`, in program order. -/
def seedEvents (opts : List Opt) (cmds : List Cmd) : Store :=
  cmds.flatMap (fun c => (c.name, Arg.bool false) :: c.args.flatMap slotEvents)
  ++ opts.map (fun o => (o.name, if o.flag then Arg.bool false else Arg.null))

theorem foldl_flatMap {α β γ : Type} (g : α → List β) (f : γ → β → γ) (l : List α) (b : γ) :
    (l.flatMap g).foldl f b = l.foldl (fun acc x => (g x).foldl f acc) b := by
  induction l generalizing b with
  | nil => rfl
  | cons x xs ih => simp [List.flatMap_cons, List.foldl_append, ih]

theorem foldl_ext {α β : Type} (f g : β → α → β) (b : β) (l : List α)
    (h : ∀ s x, f s x = g s x) : l.foldl f b = l.foldl g b := by
  induction l generalizing b with
  | nil => rfl
  | cons x xs ih => simp only [List.foldl_cons, h, ih]

theorem seedSlot_eq (s : Store) (pt : ParamType) :
    seedSlot s pt = (slotEvents pt).foldl seedStep s := by
  cases pt with
  | param p =>
    by_cases h : p.option = true <;> simp [seedSlot, slotEvents, h, seedStep]
  | one o =>
    simp [seedSlot, slotEvents, List.foldl_map, seedStep]

theorem seedCmd_eq (s : Store) (c : Cmd) :
    seedCmd s c = ((c.name, Arg.bool false) :: c.args.flatMap slotEvents).foldl seedStep s := by
  rw [List.foldl_cons, foldl_flatMap]
  unfold seedCmd
  rw [foldl_ext _ _ _ _ seedSlot_eq]
  rfl

theorem initValue_eq_fold (opts : List Opt) (cmds : List Cmd) :
    initValue opts cmds = (seedEvents opts cmds).foldl seedStep [] := by
  unfold initValue seedEvents
  rw [List.foldl_append, foldl_flatMap]
  have h1 : cmds.foldl seedCmd ([] : Store)
      = cmds.foldl (fun acc c => ((c.name, Arg.bool false) :: c.args.flatMap slotEvents).foldl seedStep acc) [] :=
    foldl_ext _ _ _ _ seedCmd_eq
  have h2 : ∀ (s : Store), opts.foldl seedOpt s
      = (opts.map (fun o => (o.name, if o.flag then Arg.bool false else Arg.null))).foldl seedStep s := by
    intro s
    rw [List.foldl_map]
    exact foldl_ext _ _ _ _ (fun s2 o => rfl)
  rw [h2, h1]

theorem lookup_seedFold (events : Store) (s : Store) (k : String) :
    lookup k (events.foldl seedStep s)
      = ((lookup k s).rec (lookup k events) (fun b => some b) : Option Arg) := by
  induction events generalizing s with
  | nil =>
    cases hlk : lookup k s with
    | none => simp [List.foldl_nil, hlk, lookup]
    | some b => simp [List.foldl_nil, hlk]
  | cons kv rest ih =>
    obtain ⟨k2, a⟩ := kv
    rw [List.foldl_cons]
    rw [ih]
    have ht : lookup k (seedStep s (k2, a))
        = ((lookup k s).rec (if k2 = k then some a else none) (fun b => some b) : Option Arg) :=
      lookup_tryEmplace s k2 a k
    rw [ht]
    cases hlk : lookup k s with
    | some b => simp
    | none =>
      by_cases hk : k2 = k
      · simp [hk, lookup]
      · simp [hk, lookup]

/-- The pre-seeded mapping looks up as the first seed event for the key. -/
theorem lookup_initValue (opts : List Opt) (cmds : List Cmd) (k : String) :
    lookup k (initValue opts cmds) = lookup k (seedEvents opts cmds) := by
  rw [initValue_eq_fold, lookup_seedFold]
  rfl

theorem slotEvents_keys (pt : ParamType) :
    (slotEvents pt).map Prod.fst = slotKeys pt := by
  cases pt with
  | param p => by_cases h : p.option = true <;> simp [slotEvents, slotKeys, h]
  | one o => simp [slotEvents, slotKeys, Function.comp_def]

theorem seedEvents_keys (opts : List Opt) (cmds : List Cmd) :
    (seedEvents opts cmds).map Prod.fst = allKeys opts cmds := by
  unfold seedEvents allKeys cmdSlotKeys
  rw [List.map_append]
  congr 1
  · rw [List.map_flatMap]
    congr 1
    funext c
    rw [List.map_cons, List.map_flatMap]
    congr 1
    congr 1
    funext pt
    exact slotEvents_keys pt
  · rw [List.map_map]
    congr 1

theorem lookup_eq_some_of_nodup (events : Store) (k : String) (a : Arg)
    (hnd : (events.map Prod.fst).Nodup) (hmem : (k, a) ∈ events) :
    lookup k events = some a := by
  induction events with
  | nil => simp at hmem
  | cons kv rest ih =>
    obtain ⟨k2, b⟩ := kv
    rw [List.map_cons, List.nodup_cons] at hnd
    rcases List.mem_cons.mp hmem with heq | hmem2
    · rw [Prod.mk.injEq] at heq
      simp [lookup, heq.1.symm, heq.2]
    · have hk2 : ¬ k2 = k := by
        intro he
        subst he
        exact hnd.1 (by
          rw [List.mem_map]
          exact ⟨(k2, a), hmem2, rfl⟩)
      simp [lookup, hk2, ih hnd.2 hmem2]

theorem lookup_isSome_iff_mem (events : Store) (k : String) :
    (lookup k events).isSome = true ↔ k ∈ events.map Prod.fst := by
  induction events with
  | nil => simp [lookup]
  | cons kv rest ih =>
    obtain ⟨k2, b⟩ := kv
    by_cases h : k2 = k
    · simp [lookup, h]
    · have hk : ¬ k = k2 := fun he => h he.symm
      simp [lookup, h, ih, hk]

/-! ### Failure shapes of the parse phases (no phase fails with `.ok`) -/

theorem dumpPT_error (opts : List Opt) (pt : ParamType) (e : Outcome)
    (h : dumpPT opts pt = .error e) : e = .exitAbort := by
  cases pt with
  | param p =>
    simp only [dumpPT, dumpParam] at h
    by_cases hpo : p.option = true
    · rw [if_pos hpo] at h
      cases hg : getOption opts p.val with
      | some o => rw [hg] at h; cases h
      | none => rw [hg] at h; injection h with h2; exact h2.symm
    · rw [if_neg hpo] at h
      cases h
  | one o => simp [dumpPT] at h

theorem padLoop_fatal (opts : List Opt) (anyf : Bool) (slots : List ParamType) :
    ∀ (margs : List String) (out : Outcome), padLoop opts anyf slots margs = .fatal out →
      (∃ m, out = .exitErr m) ∨ out = .exitAbort := by
  induction slots with
  | nil =>
    intro margs out h
    simp [padLoop] at h
  | cons slot rest ih =>
    intro margs out h
    simp only [padLoop] at h
    by_cases hr : ptRequired slot = true
    · rw [if_pos hr] at h
      by_cases ha : anyf = true
      · rw [if_pos ha] at h
        cases h
      · rw [if_neg ha] at h
        cases hd : dumpPT opts slot with
        | ok d =>
          rw [hd] at h
          injection h with h2
          exact Or.inl ⟨_, h2.symm⟩
        | error e =>
          rw [hd] at h
          injection h with h2
          subst h2
          exact Or.inr (dumpPT_error opts slot _ hd)
    · rw [if_neg hr] at h
      exact ih _ _ h

theorem bindSlot_error (v : Store) (tok : String) (pt : ParamType) (e : Outcome)
    (h : bindSlot v tok pt = .error e) : ∃ m, e = .exitErr m := by
  cases pt with
  | param p => cases h
  | one o =>
    simp only [bindSlot] at h
    by_cases hc : tok ≠ "" ∧ o.contains tok = false
    · rw [if_pos hc] at h
      injection h with h2
      exact ⟨_, h2.symm⟩
    · rw [if_neg hc] at h
      cases h

theorem bindSlots_error (l : List (ParamType × String)) :
    ∀ (v : Store) (e : Outcome), bindSlots v l = .error e → ∃ m, e = .exitErr m := by
  induction l with
  | nil =>
    intro v e h
    cases h
  | cons st rest ih =>
    obtain ⟨slot, tok⟩ := st
    intro v e h
    simp only [bindSlots] at h
    cases hb : bindSlot v tok slot with
    | error e2 =>
      rw [hb] at h
      injection h with h2
      subst h2
      exact bindSlot_error v tok slot _ hb
    | ok v2 =>
      rw [hb] at h
      exact ih v2 e h

theorem bindOpt_error (opts : List Opt) (st : Store × StrMap) (ref : Param) (e : Outcome)
    (h : bindOpt opts st ref = .error e) : (∃ m, e = .exitErr m) ∨ e = .exitAbort := by
  unfold bindOpt at h
  cases hg : getOption opts ref.val with
  | none =>
    simp only [hg] at h
    injection h with h2
    exact Or.inr h2.symm
  | some o =>
    simp only [hg] at h
    by_cases hm : (lookupStr o.name st.2).isSome = true
    · rw [if_pos hm] at h
      by_cases hf : o.flag = true
      · rw [if_pos hf] at h
        cases h
      · rw [if_neg hf] at h
        cases h
    · rw [if_neg hm] at h
      by_cases hr : ref.required = true
      · rw [if_pos hr] at h
        injection h with h2
        exact Or.inl ⟨_, h2.symm⟩
      · rw [if_neg hr] at h
        cases h

theorem bindOpts_error (opts : List Opt) (refs : List Param) :
    ∀ (st : Store × StrMap) (e : Outcome), bindOpts opts st refs = .error e →
      (∃ m, e = .exitErr m) ∨ e = .exitAbort := by
  induction refs with
  | nil =>
    intro st e h
    cases h
  | cons ref rest ih =>
    intro st e h
    simp only [bindOpts] at h
    cases hb : bindOpt opts st ref with
    | error e2 =>
      rw [hb] at h
      injection h with h2
      subst h2
      exact bindOpt_error opts st ref _ hb
    | ok st2 =>
      rw [hb] at h
      exact ih st2 e h

theorem tokenize_error_shape (opts : List Opt) (args : List String) (mopts : StrMap)
    (margs : List String) :
    ∀ e, tokenize opts args mopts margs = .error e → e = .oob ∨ ∃ m, e = .exitErr m := by
  induction args, mopts, margs using tokenize.induct opts with
  | case1 mopts margs =>
    intro e h
    simp [tokenize] at h
  | case2 arg rest mopts margs hfront =>
    intro e h
    simp only [tokenize, hfront] at h
    injection h with h2
    exact Or.inl h2.symm
  | case3 arg mopts margs o hget hflag hshort hfront =>
    intro e h
    simp [tokenize, hfront, hget, hflag, hshort] at h
    exact Or.inr ⟨_, h.symm⟩
  | case4 arg mopts margs o hget hflag hshort vtok rest2 hfront ih =>
    intro e h
    simp only [tokenize, hfront] at h
    simp [hget, hflag, hshort] at h
    exact ih e h
  | case5 arg rest mopts margs o hget hflag hshort hval hfront =>
    intro e h
    simp [tokenize, hfront, hget, hflag, hshort, hval] at h
    exact Or.inr ⟨_, h.symm⟩
  | case6 arg rest mopts margs o hget hflag hshort hval hfront ih =>
    intro e h
    simp only [tokenize, hfront] at h
    simp [hget, hflag, hshort, hval] at h
    exact ih e h
  | case7 arg rest mopts margs o hget hflag hfront ih =>
    intro e h
    simp only [tokenize, hfront] at h
    simp [hget, hflag] at h
    exact ih e h
  | case8 arg rest mopts margs hget hfront =>
    intro e h
    simp [tokenize, hfront, hget] at h
    exact Or.inr ⟨_, h.symm⟩
  | case9 arg rest mopts margs ch hfront hch ih =>
    intro e h
    simp only [tokenize, hfront] at h
    simp [hch] at h
    exact ih e h

/-! ### Frame and preservation lemmas for the binding phases -/

theorem bindSlot_frame (v : Store) (tok : String) (pt : ParamType) (v2 : Store)
    (h : bindSlot v tok pt = .ok v2) (k : String) (hk : k ∉ slotWrites pt) :
    lookup k v2 = lookup k v := by
  cases pt with
  | param p =>
    simp only [bindSlot] at h
    injection h with h2
    subst h2
    have hkp : ¬ p.val = k := by
      intro he
      exact hk (by simp [slotWrites, he])
    by_cases ht : tok ≠ ""
    · rw [if_pos ht, lookup_setArg, if_neg hkp]
    · rw [if_neg ht]
  | one o =>
    simp only [bindSlot] at h
    by_cases hc : tok ≠ "" ∧ o.contains tok = false
    · rw [if_pos hc] at h
      cases h
    · rw [if_neg hc] at h
      injection h with h2
      subst h2
      rw [lookup_foldl_setArg, if_neg (by simpa [slotWrites] using hk)]

theorem bindSlot_isSome (v : Store) (tok : String) (pt : ParamType) (v2 : Store)
    (h : bindSlot v tok pt = .ok v2) (k : String) (hs : (lookup k v).isSome = true) :
    (lookup k v2).isSome = true := by
  cases pt with
  | param p =>
    simp only [bindSlot] at h
    injection h with h2
    subst h2
    by_cases ht : tok ≠ ""
    · rw [if_pos ht]
      exact lookup_isSome_setArg _ _ _ _ hs
    · rw [if_neg ht]
      exact hs
  | one o =>
    simp only [bindSlot] at h
    by_cases hc : tok ≠ "" ∧ o.contains tok = false
    · rw [if_pos hc] at h
      cases h
    · rw [if_neg hc] at h
      injection h with h2
      subst h2
      rw [lookup_foldl_setArg]
      by_cases hm : k ∈ o.items
      · simp [hm]
      · simp [hm, hs]

theorem bindSlots_frame (l : List (ParamType × String)) :
    ∀ (v v2 : Store), bindSlots v l = .ok v2 →
      ∀ k, k ∉ l.flatMap (fun st => slotWrites st.1) → lookup k v2 = lookup k v := by
  induction l with
  | nil =>
    intro v v2 h k _
    injection h with h2
    rw [h2]
  | cons st rest ih =>
    obtain ⟨slot, tok⟩ := st
    intro v v2 h k hk
    simp only [bindSlots] at h
    cases hb : bindSlot v tok slot with
    | error e =>
      rw [hb] at h
      cases h
    | ok v1 =>
      rw [hb] at h
      have h1 := bindSlot_frame v tok slot v1 hb k (fun hm => hk (by simp [hm]))
      have h2 := ih v1 v2 h k (fun hm => hk (by simp [hm]))
      rw [h2, h1]

theorem bindSlots_isSome (l : List (ParamType × String)) :
    ∀ (v v2 : Store), bindSlots v l = .ok v2 →
      ∀ k, (lookup k v).isSome = true → (lookup k v2).isSome = true := by
  induction l with
  | nil =>
    intro v v2 h k hs
    injection h with h2
    rw [← h2]
    exact hs
  | cons st rest ih =>
    obtain ⟨slot, tok⟩ := st
    intro v v2 h k hs
    simp only [bindSlots] at h
    cases hb : bindSlot v tok slot with
    | error e =>
      rw [hb] at h
      cases h
    | ok v1 =>
      rw [hb] at h
      exact ih v1 v2 h k (bindSlot_isSome v tok slot v1 hb k hs)

theorem bindOpt_cases (opts : List Opt) (st : Store × StrMap) (ref : Param)
    (st2 : Store × StrMap) (h : bindOpt opts st ref = .ok st2) :
    ∃ o, getOption opts ref.val = some o ∧
      (st2.1 = st.1 ∨ ∃ a, st2.1 = setArg o.name a st.1) := by
  unfold bindOpt at h
  cases hg : getOption opts ref.val with
  | none =>
    simp only [hg] at h
    cases h
  | some o =>
    simp only [hg] at h
    refine ⟨o, rfl, ?_⟩
    by_cases hm : (lookupStr o.name st.2).isSome = true
    · rw [if_pos hm] at h
      by_cases hf : o.flag = true
      · rw [if_pos hf] at h
        injection h with h2
        exact Or.inr ⟨_, by rw [← h2]⟩
      · rw [if_neg hf] at h
        injection h with h2
        exact Or.inr ⟨_, by rw [← h2]⟩
    · rw [if_neg hm] at h
      by_cases hr : ref.required = true
      · rw [if_pos hr] at h
        cases h
      · rw [if_neg hr] at h
        injection h with h2
        exact Or.inl (by rw [← h2])

theorem bindOpts_frame (opts : List Opt) (refs : List Param) :
    ∀ (st st2 : Store × StrMap), bindOpts opts st refs = .ok st2 →
      ∀ k, k ∉ refNamesL opts refs → lookup k st2.1 = lookup k st.1 := by
  induction refs with
  | nil =>
    intro st st2 h k _
    injection h with h2
    rw [h2]
  | cons ref rest ih =>
    intro st st2 h k hk
    simp only [bindOpts] at h
    cases hb : bindOpt opts st ref with
    | error e =>
      rw [hb] at h
      cases h
    | ok st1 =>
      rw [hb] at h
      obtain ⟨o, hg, hcase⟩ := bindOpt_cases opts st ref st1 hb
      have hk2 : k ∉ (o.name :: refNamesL opts rest) := by
        simpa [refNamesL, List.filterMap_cons, hg] using hk
      have hkh : ¬ o.name = k := fun he => hk2 (by simp [he])
      have hkt : k ∉ refNamesL opts rest := fun hm => hk2 (by simp [hm])
      have h1 : lookup k st1.1 = lookup k st.1 := by
        rcases hcase with hc | ⟨a, hc⟩
        · rw [hc]
        · rw [hc, lookup_setArg, if_neg hkh]
      rw [ih st1 st2 h k hkt, h1]

theorem bindOpts_isSome (opts : List Opt) (refs : List Param) :
    ∀ (st st2 : Store × StrMap), bindOpts opts st refs = .ok st2 →
      ∀ k, (lookup k st.1).isSome = true → (lookup k st2.1).isSome = true := by
  induction refs with
  | nil =>
    intro st st2 h k hs
    injection h with h2
    rw [← h2]
    exact hs
  | cons ref rest ih =>
    intro st st2 h k hs
    simp only [bindOpts] at h
    cases hb : bindOpt opts st ref with
    | error e =>
      rw [hb] at h
      cases h
    | ok st1 =>
      rw [hb] at h
      obtain ⟨o, hg, hcase⟩ := bindOpt_cases opts st ref st1 hb
      have h1 : (lookup k st1.1).isSome = true := by
        rcases hcase with hc | ⟨a, hc⟩
        · rw [hc]
          exact hs
        · rw [hc]
          exact lookup_isSome_setArg _ _ _ _ hs
      exact ih st1 st2 h k h1

/-! ### Success shape of the candidate loop -/

theorem attemptCmd_ok_shape (opts : List Opt) (mopts : StrMap) (c : String)
    (v0 : Store) (margs : List String) (cmd : Cmd) (v : Store)
    (h : attemptCmd opts mopts c v0 margs cmd = some (.ok v)) :
    ∃ fullArgs v2 st, padLoop opts cmd.any (cmd.args.drop margs.length) margs = .ok fullArgs
      ∧ bindSlots (setArg cmd.name (.str c) v0) (cmd.args.zip fullArgs) = .ok v2
      ∧ bindOpts opts (v2, mopts) cmd.options = .ok st
      ∧ v = st.1 := by
  unfold attemptCmd at h
  by_cases hov : margs.length > cmd.args.length
  · rw [if_pos hov] at h
    injection h with h2
    cases h2
  · rw [if_neg hov] at h
    cases hp : padLoop opts cmd.any (cmd.args.drop margs.length) margs with
    | fatal out =>
      rw [hp] at h
      injection h with h2
      rcases padLoop_fatal opts cmd.any _ _ _ hp with ⟨m, hm⟩ | hm <;> rw [hm] at h2 <;> cases h2
    | skip =>
      rw [hp] at h
      cases h
    | ok fullArgs =>
      rw [hp] at h
      injection h with h2
      cases hb : bindSlots (setArg cmd.name (.str c) v0) (cmd.args.zip fullArgs) with
      | error e =>
        simp only [hb] at h2
        obtain ⟨m, hm⟩ := bindSlots_error _ _ _ hb
        rw [hm] at h2
        cases h2
      | ok v2 =>
        simp only [hb] at h2
        cases ho : bindOpts opts (v2, mopts) cmd.options with
        | error e =>
          simp only [ho] at h2
          rcases bindOpts_error opts _ _ _ ho with ⟨m, hm⟩ | hm <;> rw [hm] at h2 <;> cases h2
        | ok st =>
          simp only [ho] at h2
          injection h2 with h3
          exact ⟨fullArgs, v2, st, rfl, hb, ho, h3.symm⟩

theorem matchLoop_ok_shape (opts : List Opt) (cmds0 : List Cmd) (mopts : StrMap)
    (c : String) (bm : List String) :
    ∀ (cl : List Cmd) (v : Store),
      matchLoop opts cmds0 mopts c bm cl (initValue opts cmds0) bm = .ok v →
      ∃ m ∈ cl, (m.any = true ∨ m.name = c)
        ∧ attemptCmd opts mopts c (initValue opts cmds0) bm m = some (.ok v) := by
  intro cl
  induction cl with
  | nil =>
    intro v h
    simp [matchLoop] at h
  | cons cmd rest ih =>
    intro v h
    simp only [matchLoop] at h
    by_cases hnc : cmd.any = false ∧ cmd.name ≠ c
    · rw [if_pos hnc] at h
      obtain ⟨m, hm, hc2, ha⟩ := ih v h
      exact ⟨m, by simp [hm], hc2, ha⟩
    · rw [if_neg hnc] at h
      cases ha : attemptCmd opts mopts c (initValue opts cmds0) bm cmd with
      | some out =>
        simp only [ha] at h
        refine ⟨cmd, by simp, ?_, by rw [ha, h]⟩
        by_cases hany : cmd.any = true
        · exact Or.inl hany
        · right
          have hf : cmd.any = false := by
            cases h2 : cmd.any with
            | false => rfl
            | true => exact absurd h2 hany
          by_contra hne
          exact hnc ⟨hf, hne⟩
      | none =>
        simp only [ha] at h
        obtain ⟨m, hm, hc2, ha2⟩ := ih v h
        exact ⟨m, by simp [hm], hc2, ha2⟩

/-! ### Distinctness helpers over the schema key list -/

theorem nodup_piece {α β : Type} (f : α → List β) (l : List α)
    (h : (l.flatMap f).Nodup) (a : α) (ha : a ∈ l) : (f a).Nodup := by
  obtain ⟨s, t, rfl⟩ := List.append_of_mem ha
  rw [List.flatMap_append, List.flatMap_cons] at h
  have h2 := (List.nodup_append.mp h).2.1
  exact (List.nodup_append.mp h2).1

theorem nodup_flatMap_cross {α β : Type} (f : α → List β) (l : List α)
    (h : (l.flatMap f).Nodup) (a b : α) (hab : a ≠ b) (ha : a ∈ l) (hb : b ∈ l)
    (x : β) (hxa : x ∈ f a) : x ∉ f b := by
  intro hxb
  obtain ⟨s, t, rfl⟩ := List.append_of_mem ha
  rw [List.flatMap_append, List.flatMap_cons] at h
  rcases List.mem_append.mp hb with hbs | hbat
  · have hd := (List.nodup_append.mp h).2.2
    exact hd (List.mem_flatMap.mpr ⟨b, hbs, hxb⟩) (List.mem_append.mpr (Or.inl hxa))
  · rcases List.mem_cons.mp hbat with hba | hbt
    · exact hab hba.symm
    · have h2 := (List.nodup_append.mp h).2.1
      have hd := (List.nodup_append.mp h2).2.2
      exact hd hxa (List.mem_flatMap.mpr ⟨b, hbt, hxb⟩)

theorem refNamesL_subset (opts : List Opt) (refs : List Param) (k : String)
    (hk : k ∈ refNamesL opts refs) : k ∈ opts.map Opt.name := by
  simp only [refNamesL, List.mem_filterMap] at hk
  obtain ⟨ref, _, hr⟩ := hk
  cases hg : getOption opts ref.val with
  | none =>
    rw [hg] at hr
    cases hr
  | some o =>
    rw [hg] at hr
    have ho : o ∈ opts := by
      unfold getOption at hg
      by_cases hlen : ref.val.length < 2
      · rw [if_pos hlen] at hg
        cases hg
      · rw [if_neg hlen] at hg
        exact List.mem_of_find?_eq_some hg
    rw [List.mem_map]
    exact ⟨o, ho, by simpa using hr⟩

theorem slotWrites_eq_slotKeys (args : List ParamType)
    (hopt : ∀ p : Param, ParamType.param p ∈ args → p.option = false) :
    args.flatMap slotWrites = args.flatMap slotKeys := by
  induction args with
  | nil => rfl
  | cons pt rest ih =>
    rw [List.flatMap_cons, List.flatMap_cons, ih (fun p hp => hopt p (by simp [hp]))]
    congr 1
    cases pt with
    | param p => simp [slotWrites, slotKeys, hopt p (by simp)]
    | one o => rfl

theorem zip_writes_subset (args : List ParamType) (toks : List String) (k : String)
    (hk : k ∈ (args.zip toks).flatMap (fun st => slotWrites st.1)) :
    k ∈ args.flatMap slotWrites := by
  rw [List.mem_flatMap] at hk
  obtain ⟨⟨slot, tok⟩, hm, hks⟩ := hk
  exact List.mem_flatMap.mpr ⟨slot, (List.of_mem_zip hm).1, hks⟩

/-! ### Seed-event membership for each key category -/

theorem cmd_name_event (opts : List Opt) (cmds : List Cmd) (d : Cmd) (hd : d ∈ cmds) :
    (d.name, Arg.bool false) ∈ seedEvents opts cmds := by
  unfold seedEvents
  exact List.mem_append.mpr (Or.inl (List.mem_flatMap.mpr ⟨d, hd, by simp⟩))

theorem pos_event (opts : List Opt) (cmds : List Cmd) (d : Cmd) (p : Param)
    (hd : d ∈ cmds) (hp : ParamType.param p ∈ d.args) (hpo : p.option = false) :
    (p.val, Arg.null) ∈ seedEvents opts cmds := by
  unfold seedEvents
  refine List.mem_append.mpr (Or.inl (List.mem_flatMap.mpr ⟨d, hd, ?_⟩))
  refine List.mem_cons.mpr (Or.inr (List.mem_flatMap.mpr ⟨.param p, hp, ?_⟩))
  simp [slotEvents, hpo]

theorem one_event (opts : List Opt) (cmds : List Cmd) (d : Cmd) (og : One)
    (hd : d ∈ cmds) (hp : ParamType.one og ∈ d.args) (it : String) (hit : it ∈ og.items) :
    (it, Arg.bool false) ∈ seedEvents opts cmds := by
  unfold seedEvents
  refine List.mem_append.mpr (Or.inl (List.mem_flatMap.mpr ⟨d, hd, ?_⟩))
  refine List.mem_cons.mpr (Or.inr (List.mem_flatMap.mpr ⟨.one og, hp, ?_⟩))
  simp only [slotEvents, List.mem_map]
  exact ⟨it, hit, rfl⟩

theorem opt_event (opts : List Opt) (cmds : List Cmd) (o : Opt) (ho : o ∈ opts) :
    (o.name, if o.flag then Arg.bool false else Arg.null) ∈ seedEvents opts cmds := by
  unfold seedEvents
  refine List.mem_append.mpr (Or.inr ?_)
  rw [List.mem_map]
  exact ⟨o, ho, rfl⟩

/-! ### Decomposing a successful parse -/

theorem parse_ok_shape (reg : Registry) (c : String) (rest : List String) (v : Store)
    (hok : (parse reg (c :: rest)).1 = .ok v) :
    ∃ mopts margs, tokenize (effOpts reg) rest [] [] = .ok (mopts, margs)
      ∧ matchLoop (effOpts reg) reg.cmds mopts c margs reg.cmds
          (initValue (effOpts reg) reg.cmds) margs = .ok v := by
  simp only [parse] at hok
  by_cases h1 : rest.isEmpty = true ∧ (c = "-h" ∨ c = "--help")
  · rw [if_pos h1] at hok
    cases hok
  · rw [if_neg h1] at hok
    by_cases h2 : rest.isEmpty = true ∧ (c = "-v" ∨ c = "--version")
    · rw [if_pos h2] at hok
      cases hok
    · rw [if_neg h2] at hok
      cases ht : tokenize (effOpts reg) rest [] [] with
      | error e =>
        simp only [ht] at hok
        rcases tokenize_error_shape _ _ _ _ _ ht with he | ⟨m2, he⟩ <;> rw [he] at hok <;> cases hok
      | ok pr =>
        obtain ⟨mopts, margs⟩ := pr
        simp only [ht] at hok
        exact ⟨mopts, margs, rfl, hok⟩

/-! ### C7: completeness and defaults of the returned mapping -/

/-- Registry with a command named `x` and a command `go` whose positional is
also named `x`: the schema registers fine and parse succeeds. -/
def regAlias : Registry :=
  ⟨[], [⟨"x", false, [], []⟩, ⟨"go", false, [.param ⟨"x", true, false⟩], []⟩]⟩

/-- C7 as stated is refuted on the code when schema names alias: after the
successful parse of `["go", "val"]` against `regAlias`, the key `x` — the
name of a command that was not invoked, which the claim requires to hold
Bool false — holds the String value bound by the matched command's
positional of the same name. -/
theorem aliasing_counterexample :
    okLookup (parse regAlias ["go", "val"]).1 "x" = some (.str "val")
    ∧ some (Arg.str "val") ≠ some (Arg.bool false) :=
  ⟨by decide, by decide⟩

/-- C7 amended: for a successful parse with at least a command-name argument,
over a schema whose key names (command names, positional names, choice
alternatives, option full names) are pairwise distinct and whose positional
lists carry no option references: every schema key is present in the result;
some candidate command was matched, its key holds the literal invoked
command string, every other command's key holds Bool false, and every key
the matched command did not bind (outside its name, its slot keys and its
resolved referenced option names) keeps its pre-seeded `init_value` default —
Null for plain positionals and value options, false for flags, choice
alternatives and command names, as the last four conjuncts state. -/
theorem result_mapping_complete (reg : Registry) (c : String) (rest : List String) (v : Store)
    (hnd : (allKeys (effOpts reg) reg.cmds).Nodup)
    (hopt : ∀ m ∈ reg.cmds, ∀ p : Param, ParamType.param p ∈ m.args → p.option = false)
    (hok : (parse reg (c :: rest)).1 = .ok v) :
    (∀ k ∈ allKeys (effOpts reg) reg.cmds, (lookup k v).isSome = true)
    ∧ (∃ m ∈ reg.cmds, (m.any = true ∨ m.name = c)
        ∧ lookup m.name v = some (.str c)
        ∧ (∀ d ∈ reg.cmds, d.name ≠ m.name → lookup d.name v = some (.bool false))
        ∧ (∀ k, k ∉ m.name :: (cmdSlotKeys m ++ refNamesL (effOpts reg) m.options) →
            lookup k v = lookup k (initValue (effOpts reg) reg.cmds)))
    ∧ (∀ d ∈ reg.cmds, lookup d.name (initValue (effOpts reg) reg.cmds) = some (.bool false))
    ∧ (∀ d ∈ reg.cmds, ∀ p : Param, ParamType.param p ∈ d.args →
        lookup p.val (initValue (effOpts reg) reg.cmds) = some .null)
    ∧ (∀ d ∈ reg.cmds, ∀ og : One, ParamType.one og ∈ d.args → ∀ it ∈ og.items,
        lookup it (initValue (effOpts reg) reg.cmds) = some (.bool false))
    ∧ (∀ o ∈ effOpts reg, lookup o.name (initValue (effOpts reg) reg.cmds)
        = some (if o.flag then .bool false else .null)) := by
  obtain ⟨mopts, margs, htok, hml⟩ := parse_ok_shape reg c rest v hok
  obtain ⟨m, hm, hcand, hatt⟩ := matchLoop_ok_shape _ _ _ _ _ _ v hml
  obtain ⟨fullArgs, v2, st, hpad, hbs, hbo, hv⟩ := attemptCmd_ok_shape _ _ _ _ _ _ _ hatt
  have hndK : ((seedEvents (effOpts reg) reg.cmds).map Prod.fst).Nodup := by
    rw [seedEvents_keys]
    exact hnd
  rw [allKeys] at hnd
  obtain ⟨hA, hB, hAB⟩ := List.nodup_append.mp hnd
  have hd1 : ∀ d ∈ reg.cmds,
      lookup d.name (initValue (effOpts reg) reg.cmds) = some (.bool false) := by
    intro d hd
    rw [lookup_initValue]
    exact lookup_eq_some_of_nodup _ _ _ hndK (cmd_name_event _ _ d hd)
  have hd2 : ∀ d ∈ reg.cmds, ∀ p : Param, ParamType.param p ∈ d.args →
      lookup p.val (initValue (effOpts reg) reg.cmds) = some .null := by
    intro d hd p hp
    rw [lookup_initValue]
    exact lookup_eq_some_of_nodup _ _ _ hndK (pos_event _ _ d p hd hp (hopt d hd p hp))
  have hd3 : ∀ d ∈ reg.cmds, ∀ og : One, ParamType.one og ∈ d.args → ∀ it ∈ og.items,
      lookup it (initValue (effOpts reg) reg.cmds) = some (.bool false) := by
    intro d hd og hp it hit
    rw [lookup_initValue]
    exact lookup_eq_some_of_nodup _ _ _ hndK (one_event _ _ d og hd hp it hit)
  have hd4 : ∀ o ∈ effOpts reg, lookup o.name (initValue (effOpts reg) reg.cmds)
      = some (if o.flag then .bool false else .null) := by
    intro o ho
    rw [lookup_initValue]
    exact lookup_eq_some_of_nodup _ _ _ hndK (opt_event _ _ o ho)
  have hpres : ∀ k ∈ allKeys (effOpts reg) reg.cmds, (lookup k v).isSome = true := by
    intro k hk
    have h0 : (lookup k (initValue (effOpts reg) reg.cmds)).isSome = true := by
      rw [lookup_initValue, lookup_isSome_iff_mem, seedEvents_keys]
      exact hk
    have h1 := lookup_isSome_setArg m.name k (.str c) _ h0
    have h2 := bindSlots_isSome _ _ _ hbs k h1
    have h3 := bindOpts_isSome _ _ _ _ hbo k h2
    rw [hv]
    exact h3
  have hframe : ∀ k, k ∉ m.name :: (cmdSlotKeys m ++ refNamesL (effOpts reg) m.options) →
      lookup k v = lookup k (initValue (effOpts reg) reg.cmds) := by
    intro k hk
    have hkm : ¬ m.name = k := fun he => hk (by simp [he])
    have hks : k ∉ cmdSlotKeys m := fun hm2 => hk (by simp [hm2])
    have hkr : k ∉ refNamesL (effOpts reg) m.options := fun hm2 => hk (by simp [hm2])
    have hf1 : lookup k st.1 = lookup k v2 := bindOpts_frame _ _ _ _ hbo k hkr
    have hkw : k ∉ (m.args.zip fullArgs).flatMap (fun s2 => slotWrites s2.1) := by
      intro hm2
      have hsub := zip_writes_subset _ _ _ hm2
      rw [slotWrites_eq_slotKeys m.args (hopt m hm)] at hsub
      exact hks hsub
    have hf2 := bindSlots_frame _ _ _ hbs k hkw
    rw [hv, hf1, hf2, lookup_setArg, if_neg hkm]
  have hm_nokeys : m.name ∉ cmdSlotKeys m :=
    (List.nodup_cons.mp (nodup_piece _ _ hA m hm)).1
  have hm_noopts : m.name ∉ (effOpts reg).map Opt.name := fun hmem =>
    hAB (List.mem_flatMap.mpr ⟨m, hm, by simp⟩) hmem
  have hm_norefs : m.name ∉ refNamesL (effOpts reg) m.options := fun hmem =>
    hm_noopts (refNamesL_subset _ _ _ hmem)
  have hmval : lookup m.name v = some (.str c) := by
    have hf1 : lookup m.name st.1 = lookup m.name v2 := bindOpts_frame _ _ _ _ hbo _ hm_norefs
    have hkw : m.name ∉ (m.args.zip fullArgs).flatMap (fun s2 => slotWrites s2.1) := by
      intro hm2
      have hsub := zip_writes_subset _ _ _ hm2
      rw [slotWrites_eq_slotKeys m.args (hopt m hm)] at hsub
      exact hm_nokeys hsub
    have hf2 := bindSlots_frame _ _ _ hbs m.name hkw
    rw [hv, hf1, hf2, lookup_setArg, if_pos rfl]
  have hothers : ∀ d ∈ reg.cmds, d.name ≠ m.name → lookup d.name v = some (.bool false) := by
    intro d hd hne
    have hdm : d ≠ m := fun he => hne (by rw [he])
    have h1 : d.name ∉ cmdSlotKeys m := by
      intro hmem
      exact nodup_flatMap_cross _ _ hA d m hdm hd hm d.name (by simp) (by simp [hmem])
    have h2 : d.name ∉ (effOpts reg).map Opt.name := fun hmem =>
      hAB (List.mem_flatMap.mpr ⟨d, hd, by simp⟩) hmem
    have h3 : d.name ∉ refNamesL (effOpts reg) m.options := fun hmem =>
      h2 (refNamesL_subset _ _ _ hmem)
    have hfr := hframe d.name (by
      intro hkmem
      rcases List.mem_cons.mp hkmem with he | hmem2
      · exact hne he
      · rcases List.mem_append.mp hmem2 with hmem3 | hmem3
        · exact h1 hmem3
        · exact h3 hmem3)
    rw [hfr]
    exact hd1 d hd
  exact ⟨hpres, ⟨m, hm, hcand, hmval, hothers, hframe⟩, hd1, hd2, hd3, hd4⟩

/-- Registry for the `result_mapping_complete` witness: distinct names, two
commands, one user option, one positional and one choice group. -/
def regDistinct : Registry :=
  ⟨optFullList [⟨"o1", "option1", true, ""⟩],
   [⟨"c1", false, [.param ⟨"a", true, false⟩, .one (One.mk ["foo", "bar"] false)],
     [⟨"option1", false, true⟩]⟩, ⟨"c2", false, [], []⟩]⟩

/-- The mapping returned by parsing `["c1", "tok"]` against `regDistinct`. -/
def regDistinctStore : Store :=
  match (parse regDistinct ["c1", "tok"]).1 with
  | .ok w => w
  | _ => []

/-- Witness for `result_mapping_complete` on the distinct-name schema,
instantiated at the choice-alternative key `foo` and at command `c2`. -/
theorem result_mapping_complete_witness :
    (lookup "foo" regDistinctStore).isSome = true
    ∧ lookup "c2" (initValue (effOpts regDistinct) regDistinct.cmds) = some (.bool false) := by
  have hopt2 : ∀ m ∈ regDistinct.cmds, ∀ p : Param,
      ParamType.param p ∈ m.args → p.option = false := by
    intro m hm p hp
    rcases List.mem_cons.mp hm with rfl | hm2
    · rcases List.mem_cons.mp hp with he | hp2
      · injection he with h3
        subst h3
        rfl
      · rcases List.mem_cons.mp hp2 with he | hp3
        · cases he
        · exact absurd hp3 (by simp)
    · rcases List.mem_cons.mp hm2 with rfl | hm3
      · exact absurd hp (by simp)
      · exact absurd hm3 (by simp)
  have hmain := result_mapping_complete regDistinct "c1" ["tok"] regDistinctStore
    (by decide) hopt2 (by decide)
  exact ⟨hmain.1 "foo" (by decide), hmain.2.2.1 ⟨"c2", false, [], []⟩ (by decide)⟩

end CL